import Mathlib

/-
  Verification of the trade-reconciliation engine.

  Shallow embedding of the reconciliation core:
    * `src/matching/normalizers.py`   (FieldNormalizer)
    * `src/matching/fuzzy_matcher.py` (FuzzyMatcher)
    * `src/matching/orchestrator.py`  (MatchingOrchestrator)
    * `src/workflows/exception_router.py` (ExceptionRouter)
    * `src/workflows/auto_remediation.py` (AutoRemediator)

  Modelling conventions:
    * Python floats are modelled as exact rationals (`ℚ`).
    * Python strings are modelled as `String` / `List Char`; the Python
      character classes (`str.isspace`, regex `\w`, `[A-Z]`) are modelled on
      their ASCII fragment, which covers every literal the code manipulates.
    * `datetime` values are modelled by `PyDateTime` records; wall-clock
      instants used for SLA arithmetic are modelled as minute counts (`ℕ`).
    * Database rows are Lean structures, a table is a `List` of rows, and an
      in-place mutation is an explicit functional update of the list.
-/

namespace TradeRecon

/-! ## Python character classes (ASCII model) -/

/-- Python `str.isspace` on the ASCII range (the model for `str.strip` and the
regex class `\s`). -/
def isPySpace (c : Char) : Bool :=
  c = ' ' || c = '\t' || c = '\n' || c = '\x0b' || c = '\x0c' || c = '\r'

/-- The regex class `\w` (word character) on the ASCII range:
letters, digits and underscore. -/
def isWordChar (c : Char) : Bool := c.isAlphanum || c = '_'

/-- The regex class `[A-Z]`. -/
def isUpperAZ (c : Char) : Bool := c.isUpper

/-- Python `str.upper()` (ASCII model). -/
def pyUpper (l : List Char) : List Char := l.map Char.toUpper

/-- Python `str.lstrip()`. -/
def lstripPy (l : List Char) : List Char := l.dropWhile isPySpace

/-- Python `str.rstrip()`. -/
def rstripPy (l : List Char) : List Char := (l.reverse.dropWhile isPySpace).reverse

/-- Python `str.strip()`. -/
def pyStrip (l : List Char) : List Char := rstripPy (lstripPy l)

/-! ## FieldNormalizer.normalize_symbol (src/matching/normalizers.py:10-16)

Source:
```
if not symbol: return ''
normalized = symbol.upper().strip()
normalized = re.sub(r'\.[A-Z]{1,4}$', '', normalized)
return normalized.replace(' ', '')
```
-/

/-- `re.sub(r'\.[A-Z]{1,4}$', '', l)`: the pattern is anchored at the end and
`[A-Z]` cannot match a dot, so a match exists exactly when the maximal run of
capital letters at the end of the string has length 1..4 and is preceded by a
dot; the substitution removes that dot and the run. -/
def dropExchangeSuffix (l : List Char) : List Char :=
  let caps := l.reverse.takeWhile isUpperAZ
  let rest := l.reverse.dropWhile isUpperAZ
  if 1 ≤ caps.length ∧ caps.length ≤ 4 ∧ rest.head? = some '.' then
    rest.tail.reverse
  else
    l

def normalizeSymbolL (l : List Char) : List Char :=
  (dropExchangeSuffix (pyStrip (pyUpper l))).filter (fun c => c ≠ ' ')

/-- `FieldNormalizer.normalize_symbol`.  `if not symbol` is true for the
empty string and for `None`. -/
def normalize_symbol (symbol : Option String) : String :=
  match symbol with
  | none => ""
  | some s => if s = "" then "" else String.mk (normalizeSymbolL s.data)

/-! ## FieldNormalizer.normalize_counterparty (src/matching/normalizers.py:18-47)

Source:
```
if not counterparty: return ''
text = counterparty.upper().strip()
for suffix in [... 16 corporate suffixes ...]:
    text = re.sub(rf'\b{suffix}\b\.?', '', text)
text = re.sub(r'[^\w\s]', ' ', text)
text = re.sub(r'\s+', ' ', text)
return text.strip()
```

Every corporate suffix consists solely of letters, so a `\b{suffix}\b` match
is exactly a maximal word-character run equal to the suffix.  We embed the
regex operations through the decomposition of a string into maximal
word-character runs and single non-word characters. -/

/-- A segment of a string: a maximal run of word characters, or one single
non-word character. -/
inductive Seg where
  | word : List Char → Seg
  | other : Char → Seg
deriving DecidableEq

/-- Decompose a string into maximal word-character runs and single non-word
characters. -/
def segsOf : List Char → List Seg
  | [] => []
  | c :: rest =>
    if isWordChar c then
      .word (c :: rest.takeWhile isWordChar) :: segsOf (rest.dropWhile isWordChar)
    else
      .other c :: segsOf rest
termination_by l => l.length
decreasing_by
  · exact Nat.lt_succ_of_le (List.dropWhile_sublist _).length_le
  · exact Nat.lt_succ_of_le (Nat.le_refl _)

/-- Re-assemble the segments into a string. -/
def ofSegs : List Seg → List Char
  | [] => []
  | .word r :: rest => r ++ ofSegs rest
  | .other c :: rest => c :: ofSegs rest

/-- Drop one `'.'` segment standing at the head (the greedy optional `\.?`
after a removed suffix). -/
def dropLeadingDot : List Seg → List Seg
  | .other '.' :: rest => rest
  | l => l

/-- `re.sub(rf'\b{suf}\b\.?', '', text)` at segment level, for an all-letter
`suf`: every maximal word run equal to `suf` is removed, together with a dot
standing immediately after it (the greedy optional `\.?`). -/
def dropSuffixSegs (suf : List Char) : List Seg → List Seg
  | [] => []
  | .word r :: rest =>
    if r = suf then
      dropSuffixSegs suf (dropLeadingDot rest)
    else
      .word r :: dropSuffixSegs suf rest
  | .other c :: rest => .other c :: dropSuffixSegs suf rest
termination_by l => l.length
decreasing_by
  · refine Nat.lt_succ_of_le ?_
    show (dropLeadingDot rest).length ≤ rest.length
    unfold dropLeadingDot
    split
    · exact Nat.le_succ _
    · exact Nat.le_refl _
  · exact Nat.lt_succ_of_le (Nat.le_refl _)
  · exact Nat.lt_succ_of_le (Nat.le_refl _)

/-- `re.sub(rf'\b{suf}\b\.?', '', text)` for an all-letter `suf`. -/
def subWordSuffix (suf : List Char) (l : List Char) : List Char :=
  ofSegs (dropSuffixSegs suf (segsOf l))

/-- A segment list whose head is not a word run (so that a word run placed in
front of it stays maximal). -/
def notWordHead : List Seg → Prop
  | .word _ :: _ => False
  | _ => True

/-- Well-formed segment lists: word runs are nonempty all-word and maximal,
single characters are non-word. `segsOf` produces exactly these. -/
inductive SegsWF : List Seg → Prop
  | nil : SegsWF []
  | other (c : Char) (hc : isWordChar c = false) {rest : List Seg}
      (h : SegsWF rest) : SegsWF (.other c :: rest)
  | word (r : List Char) (hne : r ≠ []) (hall : ∀ c ∈ r, isWordChar c = true)
      {rest : List Seg} (h : SegsWF rest) (hhd : notWordHead rest) :
      SegsWF (.word r :: rest)

/-- The fixed corporate-suffix list, in source order. -/
def corpSuffixes : List (List Char) :=
  ["INC".data, "INCORPORATED".data, "LLC".data, "LTD".data, "LIMITED".data,
   "CORP".data, "CORPORATION".data, "CO".data, "LP".data, "LLP".data,
   "PLC".data, "SA".data, "AG".data, "GMBH".data, "NV".data, "BV".data]

/-- `re.sub(r'[^\w\s]', ' ', text)` acts on each character independently. -/
def punctToSpace (c : Char) : Char :=
  if ¬ isWordChar c ∧ ¬ isPySpace c then ' ' else c

/-- `re.sub(r'\s+', ' ', text)`: each maximal whitespace run becomes one
space. -/
def collapseWs : List Char → List Char
  | [] => []
  | c :: rest =>
    if isPySpace c then ' ' :: collapseWs (rest.dropWhile isPySpace)
    else c :: collapseWs rest
termination_by l => l.length
decreasing_by
  · exact Nat.lt_succ_of_le (List.dropWhile_sublist _).length_le
  · exact Nat.lt_succ_of_le (Nat.le_refl _)

def normalizeCounterpartyL (l : List Char) : List Char :=
  pyStrip (collapseWs
    ((corpSuffixes.foldl (fun t suf => subWordSuffix suf t) (pyStrip (pyUpper l))).map
      punctToSpace))

/-- `FieldNormalizer.normalize_counterparty`. -/
def normalize_counterparty (counterparty : Option String) : String :=
  match counterparty with
  | none => ""
  | some s => if s = "" then "" else String.mk (normalizeCounterpartyL s.data)

/-! ## FieldNormalizer.normalize_amount (src/matching/normalizers.py:49-51)

`round(float(amount or 0), decimals)` — Python `round` is round-half-to-even;
floats are modelled as exact rationals. -/

/-- Round half to even to the nearest integer (the `ℚ` model of Python's
built-in `round` to 0 digits). -/
def rhe (q : ℚ) : ℤ :=
  let f := ⌊q⌋
  let r := q - f
  if r < 1/2 then f
  else if 1/2 < r then f + 1
  else if Even f then f else f + 1

/-- Round half to even to `d` decimal digits. -/
def roundTo (d : ℤ) (q : ℚ) : ℚ := (rhe (q * 10 ^ d) : ℚ) / 10 ^ d

/-- `FieldNormalizer.normalize_amount`.  `amount or 0` yields `0` both for
`None` and for a zero amount, i.e. it is `amount.getD 0`. -/
def normalize_amount (amount : Option ℚ) (decimals : ℤ) : ℚ :=
  roundTo decimals (amount.getD 0)

/-! ## FieldNormalizer.normalize_date (src/matching/normalizers.py:53-57)

`date_obj.strftime('%Y-%m-%d')`; `None` yields `''`. -/

/-- The `datetime` fields relevant to the embedded code. -/
structure PyDateTime where
  year : ℕ
  month : ℕ
  day : ℕ
  hour : ℕ
  minute : ℕ
  second : ℕ
deriving DecidableEq

/-- Decimal digits of `n`, most significant first. -/
def natDigitsL (n : ℕ) : List Char :=
  ((Nat.digits 10 n).reverse).map (fun d => Char.ofNat (48 + d))

/-- Left-pad with `'0'` to width `w` (the behaviour of `%Y`, `%m`, `%d`). -/
def padZeros (w : ℕ) (s : List Char) : List Char :=
  List.replicate (w - s.length) '0' ++ s

def renderIsoDateL (d : PyDateTime) : List Char :=
  padZeros 4 (natDigitsL d.year) ++ '-' :: (padZeros 2 (natDigitsL d.month) ++
    '-' :: padZeros 2 (natDigitsL d.day))

/-- `FieldNormalizer.normalize_date`. -/
def normalize_date (date_obj : Option PyDateTime) : String :=
  match date_obj with
  | none => ""
  | some d => String.mk (renderIsoDateL d)

/-- The date denoted by a rendered `YYYY-MM-DD` string (used to state that
re-rendering an already-rendered date changes nothing). -/
def charToDigit (c : Char) : ℕ := c.toNat - 48

def listToNat (l : List Char) : ℕ := Nat.ofDigits 10 (l.map charToDigit).reverse

/-- Split on `'-'`. -/
def splitOnDash : List Char → List (List Char)
  | [] => [[]]
  | c :: rest =>
    if c = '-' then [] :: splitOnDash rest
    else
      match splitOnDash rest with
      | g :: gs => (c :: g) :: gs
      | [] => [[c]]

def parseIsoDate (s : String) : PyDateTime :=
  match splitOnDash s.data with
  | [y, m, d] => ⟨listToNat y, listToNat m, listToNat d, 0, 0, 0⟩
  | _ => ⟨0, 0, 0, 0, 0, 0⟩

/-! ## Data model (src/models/database.py) -/

inductive TradeSource where
  | oms | custodian | primeBroker | exchange | manualEntry
deriving DecidableEq

/-- The `.value` of the `TradeSource` string enum. -/
def TradeSource.value : TradeSource → String
  | .oms => "oms"
  | .custodian => "custodian"
  | .primeBroker => "prime_broker"
  | .exchange => "exchange"
  | .manualEntry => "manual"

inductive BreakStatus where
  | open_ | inProgress | resolved | escalated | accepted
deriving DecidableEq

inductive BreakSeverity where
  | critical | high | medium | low
deriving DecidableEq

/-- A row of the `trades` table, restricted to the columns the reconciliation
core reads or writes.  `trade_date` (a timestamp) is modelled as a calendar
day ordinal `tradeDay` plus a time-of-day `tradeTime`; the orchestrator's
24-hour window filter selects exactly the trades of one calendar day, and
`FuzzyMatcher._as_date` renders exactly the calendar day. -/
structure Trade where
  id : ℕ
  sourceSystem : TradeSource
  tradeDay : ℕ
  tradeTime : ℕ
  symbol : String
  side : String
  quantity : ℚ
  price : ℚ
  grossAmount : Option ℚ
  netAmount : Option ℚ
  counterparty : Option String
  counterpartyNormalized : Option String
  isMatched : Bool
  matchedTradeId : Option ℕ
  matchConfidence : Option ℚ
deriving DecidableEq

/-- A row of the `trade_breaks` table (columns used by the core).  Wall-clock
instants (`created_at`, `sla_deadline`, `resolved_at`) are minute counts. -/
structure TradeBreak where
  id : ℕ
  tradeId : ℕ
  matchedTradeId : Option ℕ
  breakType : String
  severity : BreakSeverity
  fieldName : String
  expectedValue : String
  actualValue : String
  variance : Option ℚ
  variancePct : Option ℚ
  pnlImpact : Option ℚ
  status : BreakStatus
  assignedTo : Option String
  priorityScore : Option ℚ
  createdAt : ℕ
  slaDeadline : Option ℕ
  resolvedAt : Option ℕ
  resolutionNotes : Option String
  resolutionAction : Option String
  resolvedBy : Option String
deriving DecidableEq

/-- A dynamically typed Python attribute value, as observed by
`getattr(trade, field, None)` and compared with `==`. -/
inductive Val where
  | num : ℚ → Val
  | str : String → Val
  | date : ℕ → ℕ → Val
  | none : Val
deriving DecidableEq

/-- `isinstance(v, (int, float))`. -/
def Val.isNumeric : Val → Bool
  | .num _ => true
  | _ => false

def Val.toQ : Val → ℚ
  | .num q => q
  | _ => 0

/-- `str(value)`.  The claims under audit never constrain the exact numeric
rendering, so a canonical rational rendering suffices. -/
def Val.pyStr : Val → String
  | .num q => toString q
  | .str s => s
  | .date d t => toString d ++ "T" ++ toString t
  | .none => "None"

/-- `getattr(trade, field, None)` for the fields that can occur as
`field_scores` keys (the six keys produced by `compute_match_score`) and the
other comparison columns. -/
def Trade.getField (t : Trade) (field : String) : Val :=
  if field = "symbol" then .str t.symbol
  else if field = "trade_date" then .date t.tradeDay t.tradeTime
  else if field = "side" then .str t.side
  else if field = "quantity" then .num t.quantity
  else if field = "price" then .num t.price
  else if field = "counterparty" then
    (match t.counterparty with
     | some s => .str s
     | Option.none => .none)
  else if field = "counterparty_normalized" then
    (match t.counterpartyNormalized with
     | some s => .str s
     | Option.none => .none)
  else if field = "gross_amount" then
    (match t.grossAmount with
     | some q => .num q
     | Option.none => .none)
  else if field = "net_amount" then
    (match t.netAmount with
     | some q => .num q
     | Option.none => .none)
  else .none

/-! ## FuzzyMatcher (src/matching/fuzzy_matcher.py) -/

/-- External string-similarity functions (rapidfuzz `fuzz.ratio`,
`fuzz.token_sort_ratio`, `fuzz.token_set_ratio`, jellyfish
`jaro_winkler_similarity`).  These are opaque third-party library functions,
so the embedding is parametric in them; `ratio`-family results are on the
0..100 scale and `jaroWinkler` on the 0..1 scale, as in the libraries. -/
structure ExtSim where
  ratio : String → String → ℚ
  tokenSortRatio : String → String → ℚ
  tokenSetRatio : String → String → ℚ
  jaroWinkler : String → String → ℚ

/-- A fixed interpretation of the external similarity functions, usable for
concrete evaluations whose code path never reaches them. -/
def extSimZero : ExtSim :=
  ⟨fun _ _ => 0, fun _ _ => 0, fun _ _ => 0, fun _ _ => 0⟩

/-- The `FuzzyMatcher.__init__` configuration. -/
structure MatcherConfig where
  autoMatchThreshold : ℚ
  manualReviewThreshold : ℚ
  priceTolerancePct : ℚ
  quantityTolerance : ℚ
deriving DecidableEq

/-- The defaults `AUTO_MATCH_THRESHOLD=0.95`, `MANUAL_REVIEW_THRESHOLD=0.75`,
`PRICE_TOLERANCE_PCT=0.01`, `QUANTITY_TOLERANCE=0`. -/
def defaultConfig : MatcherConfig := ⟨95/100, 75/100, 1/100, 0⟩

structure MatchScore where
  overallScore : ℚ
  fieldScores : List (String × ℚ)
  isMatch : Bool
  confidenceLevel : String
deriving DecidableEq

/-- `FuzzyMatcher._match_symbol`; `not sym` is true exactly for the empty
string here (the dict values are the non-null `symbol` columns). -/
def matchSymbol (ext : ExtSim) (sym1 sym2 : String) : ℚ :=
  if sym1 = "" ∨ sym2 = "" then 0
  else if sym1 = sym2 then 1
  else
    let similarity := ext.ratio sym1 sym2 / 100
    if 9/10 ≤ similarity then similarity else 0

/-- `FuzzyMatcher._match_quantity`. -/
def matchQuantity (cfg : MatcherConfig) (qty1 qty2 : Option ℚ) : ℚ :=
  match qty1, qty2 with
  | some q1, some q2 =>
    let diff := |q1 - q2|
    if diff ≤ cfg.quantityTolerance then 1
    else
      let denom := max (max |q1| |q2|) 1
      max 0 (1 - diff / denom)
  | _, _ => 0

/-- `FuzzyMatcher._match_price`. -/
def matchPrice (cfg : MatcherConfig) (price1 price2 : Option ℚ) : ℚ :=
  match price1, price2 with
  | some p1, some p2 =>
    if p1 = p2 then 1
    else
      let denom := max (max |p1| |p2|) (1 / 1000000000)
      let pctDiff := |p1 - p2| / denom
      if pctDiff ≤ cfg.priceTolerancePct then 1
      else max 0 (1 - pctDiff / max cfg.priceTolerancePct (1 / 1000000000))
  | _, _ => 0

def pyUpperS (s : String) : String := String.mk (pyUpper s.data)

/-- `FuzzyMatcher._match_counterparty`; `not cp` is true for `None` and for
the empty string. -/
def matchCounterparty (ext : ExtSim) (cp1 cp2 : Option String) : ℚ :=
  if cp1.getD "" = "" ∨ cp2.getD "" = "" then 1/2
  else
    let s1 := cp1.getD ""
    let s2 := cp2.getD ""
    if s1 = s2 then 1
    else
      ext.tokenSortRatio s1 s2 / 100 * (4/10) + ext.tokenSetRatio s1 s2 / 100 * (4/10) +
        ext.jaroWinkler s1 s2 * (2/10)

/-- `trade.get('counterparty_normalized') or trade.get('counterparty')`. -/
def cptyForMatch (t : Trade) : Option String :=
  if t.counterpartyNormalized.getD "" ≠ "" then t.counterpartyNormalized else t.counterparty

/-- The default weights of `compute_match_score`. -/
def defaultWeights : List (String × ℚ) :=
  [("symbol", 1/4), ("trade_date", 3/20), ("side", 3/20), ("quantity", 1/5),
   ("price", 3/20), ("counterparty", 1/10)]

/-- `field_scores[field]` lookup (the keys of the default weights always
occur in `field_scores`). -/
def lookupScore (fs : List (String × ℚ)) (f : String) : ℚ :=
  match fs.find? (fun p => p.1 = f) with
  | some p => p.2
  | Option.none => 0

/-- `FuzzyMatcher.compute_match_score` with the default (`None`) weights,
which is the only way the orchestrator invokes it.  `trade_date` scoring
compares the `%Y-%m-%d` renderings of the two timestamps, i.e. their
calendar days. -/
def computeMatchScore (ext : ExtSim) (cfg : MatcherConfig) (t1 t2 : Trade) : MatchScore :=
  let fieldScores : List (String × ℚ) :=
    [("symbol", matchSymbol ext t1.symbol t2.symbol),
     ("trade_date", if t1.tradeDay = t2.tradeDay then 1 else 0),
     ("side", if pyUpperS t1.side = pyUpperS t2.side then 1 else 0),
     ("quantity", matchQuantity cfg (some t1.quantity) (some t2.quantity)),
     ("price", matchPrice cfg (some t1.price) (some t2.price)),
     ("counterparty", matchCounterparty ext (cptyForMatch t1) (cptyForMatch t2))]
  let overall := (defaultWeights.map (fun p => lookupScore fieldScores p.1 * p.2)).sum
  if cfg.autoMatchThreshold ≤ overall then ⟨overall, fieldScores, true, "auto"⟩
  else if cfg.manualReviewThreshold ≤ overall then ⟨overall, fieldScores, true, "review"⟩
  else ⟨overall, fieldScores, false, "no_match"⟩

/-- One iteration of the `find_best_match` loop. -/
def bestStep (ext : ExtSim) (cfg : MatcherConfig) (src : Trade) (threshold : ℚ)
    (acc : Option Trade × Option MatchScore) (cand : Trade) :
    Option Trade × Option MatchScore :=
  let score := computeMatchScore ext cfg src cand
  if score.overallScore < threshold then acc
  else
    match acc.2 with
    | Option.none => (some cand, some score)
    | some best =>
      if best.overallScore < score.overallScore then (some cand, some score) else acc

/-- `FuzzyMatcher.find_best_match`.  A strict `>` comparison keeps the
earliest candidate on ties. -/
def findBestMatch (ext : ExtSim) (cfg : MatcherConfig) (src : Trade)
    (cands : List Trade) (minScore : Option ℚ) : Option Trade × Option MatchScore :=
  cands.foldl (bestStep ext cfg src (minScore.getD cfg.manualReviewThreshold))
    (Option.none, Option.none)

/-! ## MatchingOrchestrator (src/matching/orchestrator.py) -/

/-- The SLA environment configuration (`SLA_HIGH_PRIORITY`,
`SLA_MEDIUM_PRIORITY`, `SLA_LOW_PRIORITY`), in minutes. -/
structure SlaEnv where
  slaHighPriority : ℕ
  slaMediumPriority : ℕ
  slaLowPriority : ℕ
deriving DecidableEq

/-- The environment defaults `'30'`, `'120'`, `'480'`. -/
def defaultSlaEnv : SlaEnv := ⟨30, 120, 480⟩

/-- `MatchingOrchestrator._calculate_sla_deadline` (deadline = now +
minutes). -/
def calculateSlaDeadline (env : SlaEnv) (now : ℕ) : BreakSeverity → ℕ
  | .critical => now + env.slaHighPriority
  | .high => now + env.slaMediumPriority
  | _ => now + env.slaLowPriority

/-- `MatchingOrchestrator._assess_break_severity`.  The Python guard
`variance_pct and variance_pct > 1.0` is true exactly when the value is
present and greater than 1. -/
def assessBreakSeverity (field : String) (variance : Option ℚ)
    (variancePct : Option ℚ) : BreakSeverity :=
  if (field = "quantity" ∨ field = "side") ∧ (variance = Option.none ∨ 0 < variance.getD 0) then
    .critical
  else if field = "price" then
    (if 1 < variancePct.getD 0 then .high else .medium)
  else if field = "gross_amount" ∨ field = "net_amount" then .medium
  else .low

/-- The loop body of `MatchingOrchestrator._identify_breaks` for one
`(field, score)` entry: skip on score ≥ 0.99 or equal raw values, otherwise
emit the break record.  Database-assigned break ids are not modelled
(`id := 0`); `created_at` takes the column default `now`. -/
def emitBreak (env : SlaEnv) (now : ℕ) (trade1 trade2 : Trade) (fs : String × ℚ) :
    Option TradeBreak :=
  if 99/100 ≤ fs.2 then Option.none
  else
    let val1 := trade1.getField fs.1
    let val2 := trade2.getField fs.1
    if val1 = val2 then Option.none
    else
      let variance : Option ℚ :=
        if val1.isNumeric ∧ val2.isNumeric then some |val1.toQ - val2.toQ| else Option.none
      let variancePct : Option ℚ :=
        if val1.isNumeric ∧ val2.isNumeric then
          some (|val1.toQ - val2.toQ| / max (max |val1.toQ| |val2.toQ|) 1 * 100)
        else Option.none
      let severity := assessBreakSeverity fs.1 variance variancePct
      some
        { id := 0, tradeId := trade1.id, matchedTradeId := some trade2.id,
          breakType := fs.1 ++ "_mismatch", severity := severity, fieldName := fs.1,
          expectedValue := val1.pyStr, actualValue := val2.pyStr,
          variance := variance, variancePct := variancePct, pnlImpact := Option.none,
          status := .open_, assignedTo := Option.none,
          priorityScore := some (1 - fs.2), createdAt := now,
          slaDeadline := some (calculateSlaDeadline env now severity),
          resolvedAt := Option.none, resolutionNotes := Option.none,
          resolutionAction := Option.none, resolvedBy := Option.none }

/-- `MatchingOrchestrator._identify_breaks`. -/
def identifyBreaks (env : SlaEnv) (now : ℕ) (trade1 trade2 : Trade)
    (fieldScores : List (String × ℚ)) : List TradeBreak :=
  fieldScores.filterMap (emitBreak env now trade1 trade2)

/-- `MatchingOrchestrator._create_missing_trade_break`. -/
def createMissingTradeBreak (env : SlaEnv) (now : ℕ) (trade : Trade)
    (expectedSource : TradeSource) : TradeBreak :=
  { id := 0, tradeId := trade.id, matchedTradeId := Option.none,
    breakType := "missing_trade", severity := .high, fieldName := "trade_existence",
    expectedValue := "Trade in " ++ expectedSource.value, actualValue := "Not found",
    variance := Option.none, variancePct := Option.none, pnlImpact := Option.none,
    status := .open_, assignedTo := Option.none, priorityScore := Option.none,
    createdAt := now, slaDeadline := some (calculateSlaDeadline env now .high),
    resolvedAt := Option.none, resolutionNotes := Option.none,
    resolutionAction := Option.none, resolvedBy := Option.none }

/-- `MatchingOrchestrator._normalize_trade_fields`. -/
def normalizeTradeFields (t : Trade) : Trade :=
  let t1 := { t with symbol := normalize_symbol (some t.symbol) }
  if t.counterparty.getD "" ≠ "" ∧ t.counterpartyNormalized.getD "" = "" then
    { t1 with counterpartyNormalized := some (normalize_counterparty t.counterparty) }
  else t1

/-- `MatchingOrchestrator._fetch_unmatched_trades`: same source, trade date
within the day window, `is_matched` false. -/
def fetchUnmatchedTrades (store : List Trade) (source : TradeSource) (day : ℕ) : List Trade :=
  store.filter (fun t => t.sourceSystem = source ∧ t.tradeDay = day ∧ t.isMatched = false)

/-- The matching loop of `run_reconciliation` (lines 43-61): iterate source₁
trades in load order; candidates are the source₂ trades whose id is not in
`matched_ids2`; a successful `find_best_match` pairs `trade1` with the trade
of `trades2` carrying the best candidate's id and adds that id to the pool of
used ids.  Scoring reads only fields `_set_match_pair` never touches, so the
in-place mutations of the Python loop do not feed back into it. -/
def reconLoop (ext : ExtSim) (cfg : MatcherConfig) (trades2 : List Trade) :
    List Trade → List ℕ → List (Trade × Trade × MatchScore)
  | [], _ => []
  | t1 :: rest, used =>
    let cands := trades2.filter (fun t => !used.contains t.id)
    match findBestMatch ext cfg t1 cands Option.none with
    | (some best, some score) =>
      match trades2.find? (fun t => t.id = best.id) with
      | some t2 => (t1, t2, score) :: reconLoop ext cfg trades2 rest (best.id :: used)
      | Option.none => reconLoop ext cfg trades2 rest used
    | _ => reconLoop ext cfg trades2 rest used

/-- `MatchingOrchestrator._set_match_pair`, applied to the whole store as a
functional update: a trade appearing as the source₁ (resp. source₂) member of
a pair is marked matched, pointed at its partner and given the shared
confidence.  With distinct sources and unique ids every trade is touched by
at most one `_set_match_pair` call, so this equals the Python in-place
mutation sequence. -/
def applyMatchPairs (ps : List (ℕ × ℕ × ℚ)) (t : Trade) : Trade :=
  match ps.find? (fun p => p.1 = t.id) with
  | some p => { t with isMatched := true, matchedTradeId := some p.2.1, matchConfidence := some p.2.2 }
  | Option.none =>
    match ps.find? (fun p => p.2.1 = t.id) with
    | some p => { t with isMatched := true, matchedTradeId := some p.1, matchConfidence := some p.2.2 }
    | Option.none => t

/-- The stats dict returned by `run_reconciliation`. -/
structure ReconStats where
  autoMatched : ℕ
  manualReview : ℕ
  breaksIdentified : ℕ
  unmatchedSource1 : ℕ
  unmatchedSource2 : ℕ
deriving DecidableEq

structure ReconResult where
  store : List Trade
  breaks : List TradeBreak
  stats : ReconStats
deriving DecidableEq

/-- The in-place normalization pass over the fetched pools (step 2 of
`run_reconciliation`): exactly the trades of the two unmatched pools are
rewritten by `_normalize_trade_fields`. -/
def normalizeStep (source1 source2 : TradeSource) (day : ℕ) (t : Trade) : Trade :=
  if (t.sourceSystem = source1 ∨ t.sourceSystem = source2) ∧ t.tradeDay = day ∧
      t.isMatched = false then
    normalizeTradeFields t
  else t

/-- `MatchingOrchestrator.run_reconciliation` over an explicit store:
fetch both unmatched pools, normalize their comparison fields (persisted),
run the greedy loop, derive field breaks per pair, then missing-trade breaks
for both unmatched remainders, and count the stats. -/
def runReconciliation (ext : ExtSim) (cfg : MatcherConfig) (env : SlaEnv) (now : ℕ)
    (store : List Trade) (day : ℕ) (source1 source2 : TradeSource) : ReconResult :=
  let store1 := store.map (normalizeStep source1 source2 day)
  let trades1 := fetchUnmatchedTrades store1 source1 day
  let trades2 := fetchUnmatchedTrades store1 source2 day
  let pairs := reconLoop ext cfg trades2 trades1 []
  let pairBreaks := (pairs.map (fun p => identifyBreaks env now p.1 p.2.1 p.2.2.fieldScores)).flatten
  let unmatched1 := trades1.filter (fun t => !pairs.any (fun p => p.1.id = t.id))
  let unmatched2 := trades2.filter (fun t => !pairs.any (fun p => p.2.1.id = t.id))
  let missing1 := unmatched1.map (fun t => createMissingTradeBreak env now t source2)
  let missing2 := unmatched2.map (fun t => createMissingTradeBreak env now t source1)
  let idPairs := pairs.map (fun p => (p.1.id, p.2.1.id, p.2.2.overallScore))
  { store := store1.map (applyMatchPairs idPairs),
    breaks := pairBreaks ++ missing1 ++ missing2,
    stats :=
      { autoMatched := (pairs.filter (fun p => p.2.2.confidenceLevel = "auto")).length,
        manualReview := (pairs.filter (fun p => p.2.2.confidenceLevel ≠ "auto")).length,
        breaksIdentified := pairBreaks.length,
        unmatchedSource1 := unmatched1.length,
        unmatchedSource2 := unmatched2.length } }

/-! ## ExceptionRouter (src/workflows/exception_router.py) -/

structure RoutingRule where
  condition : TradeBreak → Bool
  assignTo : String
  escalationMinutes : ℕ

/-- `ExceptionRouter._load_routing_rules`.  Rule 2's guard
`(b.pnl_impact or 0) and abs(b.pnl_impact) > 100_000` is true exactly when
`pnl_impact` is present, non-zero and of magnitude above 100000. -/
def loadRoutingRules : List RoutingRule :=
  [⟨fun b => decide (b.severity = .critical), "senior_ops_manager", 15⟩,
   ⟨fun b => decide (b.severity = .high ∧ b.pnlImpact.getD 0 ≠ 0 ∧ 100000 < |b.pnlImpact.getD 0|),
    "head_of_trading", 30⟩,
   ⟨fun b => decide (b.breakType = "missing_trade"), "trade_support_team", 60⟩,
   ⟨fun b => decide (b.breakType = "price_mismatch" ∨ b.breakType = "quantity_mismatch"),
    "ops_analyst", 120⟩,
   ⟨fun _ => true, "ops_team", 240⟩]

structure RouteResult where
  breakId : ℕ
  assignedTo : String
  escalationTime : ℕ
deriving DecidableEq

inductive RouteError where
  | notFound
  | noRuleMatched
deriving DecidableEq

/-- `ExceptionRouter.route_exception`: unknown id raises
`ValueError(f'Break .. not found')` before any mutation; otherwise the first
matching rule assigns the break, moves it to IN_PROGRESS and the escalation
time is `now + escalation_minutes`.  The notification step only logs. -/
def routeException (store : List TradeBreak) (now : ℕ) (breakId : ℕ) :
    Except RouteError RouteResult × List TradeBreak :=
  match store.find? (fun b => b.id = breakId) with
  | Option.none => (.error .notFound, store)
  | some breakRecord =>
    match loadRoutingRules.find? (fun rule => rule.condition breakRecord) with
    | Option.none => (.error .noRuleMatched, store)
    | some rule =>
      let updated := { breakRecord with assignedTo := some rule.assignTo, status := .inProgress }
      (.ok ⟨breakRecord.id, rule.assignTo, now + rule.escalationMinutes⟩,
        store.map (fun b => if b.id = breakId then updated else b))

/-- The overdue filter of `check_sla_breaches`. -/
def isOverdue (now : ℕ) (b : TradeBreak) : Bool :=
  decide ((b.status = .open_ ∨ b.status = .inProgress) ∧
    b.slaDeadline ≠ Option.none ∧ b.slaDeadline.getD 0 < now)

/-- `ExceptionRouter._get_escalation_target`. -/
def getEscalationTarget (currentAssignee : String) : String :=
  if currentAssignee = "ops_analyst" then "senior_ops_manager"
  else if currentAssignee = "trade_support_team" then "ops_manager"
  else if currentAssignee = "ops_team" then "ops_manager"
  else if currentAssignee = "ops_manager" then "head_of_operations"
  else if currentAssignee = "senior_ops_manager" then "head_of_operations"
  else "head_of_operations"

structure EscalationEntry where
  breakId : ℕ
  originalAssignee : String
  escalatedTo : String
deriving DecidableEq

/-- One escalation step of the sweep: `break_record.assigned_to or
'unassigned'` is the original assignee, the break is re-assigned per the
escalation map and moved to ESCALATED. -/
def escalateBreak (b : TradeBreak) : TradeBreak × EscalationEntry :=
  let originalAssignee := if b.assignedTo.getD "" = "" then "unassigned" else b.assignedTo.getD ""
  let escalatedTo := getEscalationTarget originalAssignee
  ({ b with assignedTo := some escalatedTo, status := .escalated },
   ⟨b.id, originalAssignee, escalatedTo⟩)

/-- `ExceptionRouter.check_sla_breaches`: the overdue breaks are escalated in
place and reported, everything else is untouched. -/
def checkSlaBreaches (store : List TradeBreak) (now : ℕ) :
    List TradeBreak × List EscalationEntry :=
  (store.map (fun b => if isOverdue now b then (escalateBreak b).1 else b),
   (store.filter (isOverdue now)).map (fun b => (escalateBreak b).2))

/-! ## AutoRemediator (src/workflows/auto_remediation.py) -/

structure Suggestion where
  action : String
  autoExecutable : Bool
  reason : String
deriving DecidableEq

/-- `AutoRemediator.suggest_action`. -/
def suggestAction (b : TradeBreak) : Suggestion :=
  if b.breakType = "missing_trade" then
    ⟨"request_missing_trade_resend", false, "Requires external source confirmation"⟩
  else if b.breakType = "counterparty_mismatch" then
    ⟨"normalize_counterparty_alias", true, "Likely naming standardization issue"⟩
  else if b.breakType = "price_mismatch" ∧ b.variancePct ≠ Option.none ∧
      b.variancePct.getD 0 < 1/10 then
    ⟨"accept_minor_price_rounding", true, "Within acceptable micro-tolerance"⟩
  else
    ⟨"manual_investigation", false, "No safe automated path"⟩

/-- `AutoRemediator.apply_action`: returns the updated break and whether a
state change was performed.  Note that the RESOLVED branch fills
`resolution_action`, `resolution_notes` and `resolved_by` but not
`resolved_at`, exactly as the source does. -/
def applyAction (breakRecord : TradeBreak) (action : String) (actor : String) :
    TradeBreak × Bool :=
  if action = "accept_minor_price_rounding" then
    ({ breakRecord with
        status := .resolved,
        resolutionAction := some action,
        resolutionNotes := some "Automatically accepted minor price variance",
        resolvedBy := some actor }, true)
  else if action = "normalize_counterparty_alias" then
    ({ breakRecord with
        status := .inProgress,
        resolutionAction := some action,
        resolutionNotes := some "Alias normalization queued for reference data update" }, true)
  else (breakRecord, false)

/-! ## Auxiliary definitions used only to state claims -/

/-- The maximal word-character runs of a segment list. -/
def runsOfSegs (sl : List Seg) : List (List Char) :=
  sl.filterMap (fun s =>
    match s with
    | .word r => some r
    | .other _ => Option.none)

/-- The maximal word-character runs of a string. -/
def wordRuns (l : List Char) : List (List Char) := runsOfSegs (segsOf l)

/-- `normalize_symbol` as the claim states it (C9): the trailing exchange
suffix is removed only when it is a dot followed by TWO to four capital
letters, and ALL internal whitespace is removed.  To be compared with the
source-derived `normalize_symbol`. -/
def dropExchangeSuffixClaimed (l : List Char) : List Char :=
  let caps := l.reverse.takeWhile isUpperAZ
  let rest := l.reverse.dropWhile isUpperAZ
  if 2 ≤ caps.length ∧ caps.length ≤ 4 ∧ rest.head? = some '.' then
    rest.tail.reverse
  else
    l

def normalizeSymbolClaimed (symbol : Option String) : String :=
  match symbol with
  | Option.none => ""
  | some s =>
    if s = "" then ""
    else String.mk ((dropExchangeSuffixClaimed (pyStrip (pyUpper s.data))).filter
      (fun c => !isPySpace c))

/-- The ordered default routing table, as the claim states it: first match of
CRITICAL → senior_ops_manager/15; HIGH with |pnl_impact| > 100000 →
head_of_trading/30; missing_trade → trade_support_team/60; price or quantity
mismatch → ops_analyst/120; default → ops_team/240.  To be compared with the
routing performed by `routeException`. -/
def routedRule (b : TradeBreak) : String × ℕ :=
  if b.severity = .critical then ("senior_ops_manager", 15)
  else if b.severity = .high ∧ 100000 < |b.pnlImpact.getD 0| then ("head_of_trading", 30)
  else if b.breakType = "missing_trade" then ("trade_support_team", 60)
  else if b.breakType = "price_mismatch" ∨ b.breakType = "quantity_mismatch" then
    ("ops_analyst", 120)
  else ("ops_team", 240)

/-- Two store rows form a mutual matched pair sharing one confidence. -/
def Paired (t u : Trade) : Prop :=
  t.isMatched = true ∧ u.isMatched = true ∧ t.matchedTradeId = some u.id ∧
    u.matchedTradeId = some t.id ∧ t.matchConfidence = u.matchConfidence

/-- Store-wide pairing invariant: every matched trade has a mutual partner in
the store, and unmatched trades carry no partner reference. -/
def PairingInv (store : List Trade) : Prop :=
  ∀ t ∈ store,
    (t.isMatched = true → ∃ u ∈ store, Paired t u) ∧
    (t.isMatched = false → t.matchedTradeId = Option.none)

/-! ## Concrete fixtures for witness evaluations -/

def sampleTrade1 : Trade :=
  { id := 1, sourceSystem := .oms, tradeDay := 100, tradeTime := 570,
    symbol := "AAPL", side := "BUY", quantity := 100, price := 200,
    grossAmount := Option.none, netAmount := Option.none,
    counterparty := some "Goldman Sachs LLC", counterpartyNormalized := Option.none,
    isMatched := false, matchedTradeId := Option.none, matchConfidence := Option.none }

def sampleTrade2 : Trade :=
  { sampleTrade1 with id := 2, sourceSystem := .custodian, quantity := 105 }

/-- A pair differing only in quantity by a relative 5/1005: the quantity
field score lands strictly between 0.99 and 1. -/
def sampleTrade3 : Trade :=
  { sampleTrade1 with id := 3, quantity := 1000, counterparty := some "GS" }

def sampleTrade4 : Trade :=
  { sampleTrade3 with id := 4, sourceSystem := .custodian, quantity := 1005 }

def sampleBreak1 : TradeBreak :=
  { id := 7, tradeId := 1, matchedTradeId := some 2, breakType := "quantity_mismatch",
    severity := .critical, fieldName := "quantity", expectedValue := "100",
    actualValue := "105", variance := some 5, variancePct := some (100/21),
    pnlImpact := Option.none, status := .open_, assignedTo := some "ops_analyst",
    priorityScore := some (1/21), createdAt := 1000, slaDeadline := some 1030,
    resolvedAt := Option.none, resolutionNotes := Option.none,
    resolutionAction := Option.none, resolvedBy := Option.none }

/-! # Claim theorems -/

/-! ### Structural facts about `computeMatchScore` -/

/-- The per-field score map, in insertion order. -/
theorem computeMatchScore_fieldScores (ext : ExtSim) (cfg : MatcherConfig) (t1 t2 : Trade) :
    (computeMatchScore ext cfg t1 t2).fieldScores =
      [("symbol", matchSymbol ext t1.symbol t2.symbol),
       ("trade_date", if t1.tradeDay = t2.tradeDay then 1 else 0),
       ("side", if pyUpperS t1.side = pyUpperS t2.side then 1 else 0),
       ("quantity", matchQuantity cfg (some t1.quantity) (some t2.quantity)),
       ("price", matchPrice cfg (some t1.price) (some t2.price)),
       ("counterparty", matchCounterparty ext (cptyForMatch t1) (cptyForMatch t2))] := by
  unfold computeMatchScore
  dsimp only
  split_ifs <;> rfl

/-- The overall score is the weighted sum of the six field scores.  Note that
neither it nor the field scores depend on `autoMatchThreshold`. -/
theorem computeMatchScore_overall (ext : ExtSim) (cfg : MatcherConfig) (t1 t2 : Trade) :
    (computeMatchScore ext cfg t1 t2).overallScore =
      matchSymbol ext t1.symbol t2.symbol * (1/4) +
        ((if t1.tradeDay = t2.tradeDay then (1:ℚ) else 0) * (3/20) +
          ((if pyUpperS t1.side = pyUpperS t2.side then (1:ℚ) else 0) * (3/20) +
            (matchQuantity cfg (some t1.quantity) (some t2.quantity) * (1/5) +
              (matchPrice cfg (some t1.price) (some t2.price) * (3/20) +
                (matchCounterparty ext (cptyForMatch t1) (cptyForMatch t2) * (1/10) + 0))))) := by
  unfold computeMatchScore
  dsimp only
  split_ifs <;> rfl

/-- The classification is `auto` exactly when the overall score reaches the
auto-match threshold. -/
theorem computeMatchScore_confidence_auto (ext : ExtSim) (cfg : MatcherConfig) (t1 t2 : Trade) :
    ((computeMatchScore ext cfg t1 t2).confidenceLevel = "auto" ↔
      cfg.autoMatchThreshold ≤ (computeMatchScore ext cfg t1 t2).overallScore) := by
  unfold computeMatchScore
  dsimp only
  split_ifs with h1 h2 <;> simp_all

/-- Claim C10. Every `missing_trade` break created by the matching orchestrator
for an unmatched trade has severity HIGH, field_name `trade_existence`,
status OPEN, expected_value `Trade in <other source>`, actual_value
`Not found`, and an SLA deadline computed from the HIGH tier (the
`SLA_MEDIUM_PRIORITY` environment value, default 120 minutes) — even though
the spec's severity table does not cover `missing_trade`. -/
theorem missingTradeBreak_spec (env : SlaEnv) (now : ℕ) (t : Trade) (src : TradeSource) :
    (createMissingTradeBreak env now t src).severity = .high ∧
    (createMissingTradeBreak env now t src).fieldName = "trade_existence" ∧
    (createMissingTradeBreak env now t src).status = .open_ ∧
    (createMissingTradeBreak env now t src).expectedValue = "Trade in " ++ src.value ∧
    (createMissingTradeBreak env now t src).actualValue = "Not found" ∧
    (createMissingTradeBreak env now t src).slaDeadline = some (now + env.slaMediumPriority) ∧
    defaultSlaEnv.slaMediumPriority = 120 :=
  ⟨rfl, rfl, rfl, rfl, rfl, rfl, rfl⟩

/-- Claim C6, code evidence: `apply_action` with `accept_minor_price_rounding`
sets status RESOLVED and resolver = actor, returns true, and yet leaves
`resolved_at` null whenever it was null before — so the invariant
"RESOLVED ⇒ resolved_at set" claimed by the spec is violated by the code. -/
theorem applyAction_resolved_leaves_resolvedAt_none (b : TradeBreak) (actor : String)
    (h : b.resolvedAt = Option.none) :
    (applyAction b "accept_minor_price_rounding" actor).1.status = .resolved ∧
    (applyAction b "accept_minor_price_rounding" actor).1.resolvedBy = some actor ∧
    (applyAction b "accept_minor_price_rounding" actor).2 = true ∧
    (applyAction b "accept_minor_price_rounding" actor).1.resolvedAt = Option.none := by
  refine ⟨rfl, rfl, rfl, ?_⟩
  simpa [applyAction] using h

theorem applyAction_resolved_leaves_resolvedAt_none_witness :
    sampleBreak1.resolvedAt = Option.none ∧
    (applyAction sampleBreak1 "accept_minor_price_rounding" "system").1.status = .resolved :=
  ⟨rfl, (applyAction_resolved_leaves_resolvedAt_none sampleBreak1 "system" rfl).1⟩

/-- Claim C7, counterexample: a matched pair whose overall match score is
strictly below 1.0 for which the break deriver emits no break at all: the
quantity field score is 1 - 5/1005, which lies in (0.99, 1), and every other
field agrees exactly, so no field satisfies the `score < 0.99` emission
condition while the overall score is 1 - (1/5)·(5/1005) < 1. -/
theorem breakCoverage_counterexample :
    (computeMatchScore extSimZero defaultConfig sampleTrade3 sampleTrade4).overallScore < 1 ∧
    identifyBreaks defaultSlaEnv 1000 sampleTrade3 sampleTrade4
      (computeMatchScore extSimZero defaultConfig sampleTrade3 sampleTrade4).fieldScores = [] := by
  rw [computeMatchScore_overall, computeMatchScore_fieldScores]
  constructor
  · simp +decide only [matchSymbol, matchQuantity, matchPrice, matchCounterparty, cptyForMatch,
      sampleTrade3, sampleTrade4, sampleTrade1, defaultConfig, pyUpperS, pyUpper]
    norm_num
  · simp +decide only [matchSymbol, matchQuantity, matchPrice, matchCounterparty, cptyForMatch,
      sampleTrade3, sampleTrade4, sampleTrade1, defaultConfig, pyUpperS, pyUpper, identifyBreaks,
      emitBreak, List.filterMap_cons]
    norm_num

/-- Claim C7, amended: a matched pair produces at least one break whenever
some field has score below 0.99 and unequal raw values; an overall score
below 1.0 alone does not guarantee a break. -/
theorem identifyBreaks_nonempty_of_lowFieldScore (env : SlaEnv) (now : ℕ) (t1 t2 : Trade)
    (fs : List (String × ℚ)) (f : String) (s : ℚ) (hmem : (f, s) ∈ fs)
    (hs : s < 99/100) (hne : t1.getField f ≠ t2.getField f) :
    identifyBreaks env now t1 t2 fs ≠ [] := by
  induction fs with
  | nil => cases hmem
  | cons p rest ih =>
    unfold identifyBreaks
    rw [List.filterMap_cons]
    rcases List.mem_cons.mp hmem with heq | hmem'
    · subst heq
      unfold emitBreak
      rw [if_neg (not_le.mpr hs), if_neg hne]
      simp
    · split
      · exact ih hmem'
      · simp

theorem identifyBreaks_nonempty_of_lowFieldScore_witness :
    (("quantity", (20/21 : ℚ)) ∈ [("quantity", (20/21 : ℚ))] ∧ (20/21 : ℚ) < 99/100 ∧
      sampleTrade1.getField "quantity" ≠ sampleTrade2.getField "quantity") ∧
    identifyBreaks defaultSlaEnv 1000 sampleTrade1 sampleTrade2
      [("quantity", (20/21 : ℚ))] ≠ [] :=
  ⟨⟨List.mem_singleton.mpr rfl, by norm_num, by decide⟩,
    identifyBreaks_nonempty_of_lowFieldScore defaultSlaEnv 1000 sampleTrade1 sampleTrade2
      [("quantity", (20/21 : ℚ))] "quantity" (20/21) (List.mem_singleton.mpr rfl)
      (by norm_num) (by decide)⟩

/-- The loop body skips exactly when the score is at least 0.99 or the raw
values are equal. -/
theorem emitBreak_eq_none_iff (env : SlaEnv) (now : ℕ) (t1 t2 : Trade) (f : String) (s : ℚ) :
    emitBreak env now t1 t2 (f, s) = Option.none ↔
      (99/100 ≤ s ∨ t1.getField f = t2.getField f) := by
  unfold emitBreak
  dsimp only
  split_ifs with h1 h2 <;> simp_all

/-- Every emitted break carries the claimed attributes. -/
theorem emitBreak_some_props (env : SlaEnv) (now : ℕ) (t1 t2 : Trade) (f : String) (s : ℚ)
    (b : TradeBreak) (h : emitBreak env now t1 t2 (f, s) = some b) :
    s < 99/100 ∧ t1.getField f ≠ t2.getField f ∧
    b.fieldName = f ∧ b.breakType = f ++ "_mismatch" ∧ b.status = .open_ ∧
    b.priorityScore = some (1 - s) ∧
    (((t1.getField f).isNumeric ∧ (t2.getField f).isNumeric) →
      b.variance = some |(t1.getField f).toQ - (t2.getField f).toQ| ∧
      b.variancePct = some (|(t1.getField f).toQ - (t2.getField f).toQ| /
        max (max |(t1.getField f).toQ| |(t2.getField f).toQ|) 1 * 100)) ∧
    (¬((t1.getField f).isNumeric ∧ (t2.getField f).isNumeric) →
      b.variance = Option.none ∧ b.variancePct = Option.none) := by
  unfold emitBreak at h
  dsimp only at h
  split_ifs at h with h1 h2 h3
  · injection h with hb
    subst hb
    exact ⟨not_le.mp h1, h2, rfl, rfl, rfl, rfl, fun _ => ⟨rfl, rfl⟩, fun hn => absurd h3 hn⟩
  · injection h with hb
    subst hb
    exact ⟨not_le.mp h1, h2, rfl, rfl, rfl, rfl, fun hn => absurd hn h3, fun _ => ⟨rfl, rfl⟩⟩

/-- Every emitted break is tagged with one of the score-map fields. -/
theorem identifyBreaks_fieldName_mem (env : SlaEnv) (now : ℕ) (t1 t2 : Trade)
    (fs : List (String × ℚ)) :
    ∀ b ∈ identifyBreaks env now t1 t2 fs, b.fieldName ∈ fs.map Prod.fst := by
  intro b hb
  unfold identifyBreaks at hb
  rw [List.mem_filterMap] at hb
  obtain ⟨p, hp, he⟩ := hb
  have hprops := emitBreak_some_props env now t1 t2 p.1 p.2 b he
  exact List.mem_map.mpr ⟨p, hp, hprops.2.2.1.symm⟩
/-- Per-field break count: one when the field qualifies, zero otherwise. -/
theorem identifyBreaks_count (env : SlaEnv) (now : ℕ) (t1 t2 : Trade)
    (fs : List (String × ℚ)) (hnodup : (fs.map Prod.fst).Nodup) (f : String) (s : ℚ)
    (hmem : (f, s) ∈ fs) :
    ((identifyBreaks env now t1 t2 fs).filter (fun b => b.fieldName = f)).length =
      (if s < 99/100 ∧ t1.getField f ≠ t2.getField f then 1 else 0) := by
  induction fs with
  | nil => cases hmem
  | cons p rest ih =>
    rw [List.map_cons, List.nodup_cons] at hnodup
    obtain ⟨hp, hrest⟩ := hnodup
    unfold identifyBreaks
    rw [List.filterMap_cons]
    rcases List.mem_cons.mp hmem with heq | hmem'
    · cases heq
      have hrestnil :
          ((identifyBreaks env now t1 t2 rest).filter (fun b => b.fieldName = f)) = [] := by
        rw [List.filter_eq_nil_iff]
        intro x hx
        have hkeys := identifyBreaks_fieldName_mem env now t1 t2 rest x hx
        simp only [decide_eq_true_eq]
        intro hxf
        exact hp (hxf ▸ hkeys)
      by_cases hcond : s < 99/100 ∧ t1.getField f ≠ t2.getField f
      · cases he : emitBreak env now t1 t2 (f, s) with
        | none =>
          rcases (emitBreak_eq_none_iff env now t1 t2 f s).mp he with h | h
          · exact absurd h (not_le.mpr hcond.1)
          · exact absurd h hcond.2
        | some b =>
          have hprops := emitBreak_some_props env now t1 t2 f s b he
          rw [if_pos hcond]
          show ((b :: identifyBreaks env now t1 t2 rest).filter (fun b => b.fieldName = f)).length = 1
          rw [List.filter_cons, if_pos (by simpa using hprops.2.2.1), hrestnil]
          rfl
      · have hnone : emitBreak env now t1 t2 (f, s) = Option.none := by
          rw [emitBreak_eq_none_iff]
          by_cases h1 : 99/100 ≤ s
          · exact Or.inl h1
          · refine Or.inr ?_
            by_contra hne
            exact hcond ⟨not_le.mp h1, hne⟩
        rw [hnone, if_neg hcond]
        show ((identifyBreaks env now t1 t2 rest).filter (fun b => b.fieldName = f)).length = 0
        rw [hrestnil]
        rfl
    · have hfkeys : f ∈ rest.map Prod.fst := List.mem_map.mpr ⟨(f, s), hmem', rfl⟩
      have hpf : p.1 ≠ f := fun h => hp (h ▸ hfkeys)
      have htail := ih hrest hmem'
      cases he : emitBreak env now t1 t2 p with
      | none =>
        exact htail
      | some b =>
        have hprops := emitBreak_some_props env now t1 t2 p.1 p.2 b he
        show ((b :: identifyBreaks env now t1 t2 rest).filter (fun b => b.fieldName = f)).length = _
        rw [List.filter_cons, if_neg (by simpa using hprops.2.2.1 ▸ hpf)]
        exact htail
/-- Claim C1. For every matched pair with per-field scores whose field keys
are distinct (they come from a Python dict), the break deriver emits exactly
one break for each field whose score is below 0.99 and whose raw values are
unequal, and no break for any other field; each emitted break has break_type
`<field>_mismatch`, status OPEN, priority_score `1 - field_score`, and, when
both values are numeric, `variance = |v1 - v2|` and
`variance_pct = variance / max(|v1|, |v2|, 1) * 100`. -/
theorem identifyBreaks_per_field (env : SlaEnv) (now : ℕ) (t1 t2 : Trade)
    (fs : List (String × ℚ)) (hnodup : (fs.map Prod.fst).Nodup) :
    (∀ f s, (f, s) ∈ fs →
      ((identifyBreaks env now t1 t2 fs).filter (fun b => b.fieldName = f)).length =
        (if s < 99/100 ∧ t1.getField f ≠ t2.getField f then 1 else 0)) ∧
    (∀ b ∈ identifyBreaks env now t1 t2 fs,
      ∃ f s, (f, s) ∈ fs ∧ s < 99/100 ∧ t1.getField f ≠ t2.getField f ∧
        b.fieldName = f ∧ b.breakType = f ++ "_mismatch" ∧ b.status = .open_ ∧
        b.priorityScore = some (1 - s) ∧
        (((t1.getField f).isNumeric ∧ (t2.getField f).isNumeric) →
          b.variance = some |(t1.getField f).toQ - (t2.getField f).toQ| ∧
          b.variancePct = some (|(t1.getField f).toQ - (t2.getField f).toQ| /
            max (max |(t1.getField f).toQ| |(t2.getField f).toQ|) 1 * 100)) ∧
        (¬((t1.getField f).isNumeric ∧ (t2.getField f).isNumeric) →
          b.variance = Option.none ∧ b.variancePct = Option.none)) := by
  refine ⟨fun f s hmem => identifyBreaks_count env now t1 t2 fs hnodup f s hmem, ?_⟩
  intro b hb
  unfold identifyBreaks at hb
  rw [List.mem_filterMap] at hb
  obtain ⟨p, hp, he⟩ := hb
  have hprops := emitBreak_some_props env now t1 t2 p.1 p.2 b he
  exact ⟨p.1, p.2, hp, hprops.1, hprops.2.1, hprops.2.2.1, hprops.2.2.2.1,
    hprops.2.2.2.2.1, hprops.2.2.2.2.2.1, hprops.2.2.2.2.2.2.1, hprops.2.2.2.2.2.2.2⟩

/-- Witness for claim C1 at a concrete pair and score map. -/
theorem identifyBreaks_per_field_witness :
    (([("quantity", (20/21 : ℚ))].map Prod.fst).Nodup) ∧
    ((identifyBreaks defaultSlaEnv 1000 sampleTrade1 sampleTrade2
        [("quantity", (20/21 : ℚ))]).filter (fun b => b.fieldName = "quantity")).length =
      (if (20/21 : ℚ) < 99/100 ∧
          sampleTrade1.getField "quantity" ≠ sampleTrade2.getField "quantity" then 1 else 0) :=
  ⟨by decide,
    (identifyBreaks_per_field defaultSlaEnv 1000 sampleTrade1 sampleTrade2
      [("quantity", (20/21 : ℚ))] (by decide)).1 "quantity" (20/21)
      (List.mem_singleton.mpr rfl)⟩
/-- Claim C3. `check_sla_breaches` escalates exactly the breaks with status
in {OPEN, IN_PROGRESS} and a non-null `sla_deadline` earlier than now: each
such break gets status ESCALATED and is reassigned per the escalation map
(ops_analyst → senior_ops_manager, trade_support_team → ops_manager,
ops_team → ops_manager, ops_manager → head_of_operations,
senior_ops_manager → head_of_operations, otherwise head_of_operations), the
returned list has one {break_id, original_assignee, escalated_to} entry per
escalated break, and no break in the returned set still has status OPEN or
IN_PROGRESS. -/
theorem checkSlaBreaches_spec (store : List TradeBreak) (now : ℕ)
    (hnodup : (store.map TradeBreak.id).Nodup) :
    (∀ b : TradeBreak, isOverdue now b = true ↔
      ((b.status = .open_ ∨ b.status = .inProgress) ∧ b.slaDeadline ≠ Option.none ∧
        b.slaDeadline.getD 0 < now)) ∧
    ((checkSlaBreaches store now).2.length = (store.filter (isOverdue now)).length) ∧
    (∀ b ∈ store, isOverdue now b = true →
      (escalateBreak b).1 ∈ (checkSlaBreaches store now).1 ∧
      (escalateBreak b).2 ∈ (checkSlaBreaches store now).2 ∧
      (escalateBreak b).1.status = .escalated ∧
      (escalateBreak b).1.assignedTo =
        some (getEscalationTarget (escalateBreak b).2.originalAssignee)) ∧
    (∀ b ∈ store, isOverdue now b = false →
      b ∈ (checkSlaBreaches store now).1 ∧
      ∀ e ∈ (checkSlaBreaches store now).2, e.breakId ≠ b.id) ∧
    (getEscalationTarget "ops_analyst" = "senior_ops_manager" ∧
     getEscalationTarget "trade_support_team" = "ops_manager" ∧
     getEscalationTarget "ops_team" = "ops_manager" ∧
     getEscalationTarget "ops_manager" = "head_of_operations" ∧
     getEscalationTarget "senior_ops_manager" = "head_of_operations") ∧
    (∀ a : String, a ∉ ["ops_analyst", "trade_support_team", "ops_team", "ops_manager",
        "senior_ops_manager"] → getEscalationTarget a = "head_of_operations") ∧
    (∀ e ∈ (checkSlaBreaches store now).2, ∀ b' ∈ (checkSlaBreaches store now).1,
      b'.id = e.breakId → b'.status = .escalated) := by
  refine ⟨?_, ?_, ?_, ?_, ⟨rfl, rfl, rfl, rfl, rfl⟩, ?_, ?_⟩
  · intro b
    simp [isOverdue]
  · simp [checkSlaBreaches]
  · intro b hb hov
    refine ⟨List.mem_map.mpr ⟨b, hb, by rw [if_pos hov]⟩,
      List.mem_map.mpr ⟨b, List.mem_filter.mpr ⟨hb, hov⟩, rfl⟩, rfl, rfl⟩
  · intro b hb hov
    constructor
    · exact List.mem_map.mpr ⟨b, hb, by rw [if_neg (by simp [hov])]⟩
    · intro e he hid
      obtain ⟨b', hb'f, rfl⟩ := List.mem_map.mp he
      obtain ⟨hb's, hb'ov⟩ := List.mem_filter.mp hb'f
      have : b' = b := List.inj_on_of_nodup_map hnodup hb's hb hid
      rw [this, hov] at hb'ov
      cases hb'ov
  · intro a ha
    simp only [List.mem_cons, List.not_mem_nil, or_false, not_or] at ha
    obtain ⟨h1, h2, h3, h4, h5⟩ := ha
    simp [getEscalationTarget, h1, h2, h3, h4, h5]
  · intro e he b' hb' hid
    obtain ⟨b0, hb0f, rfl⟩ := List.mem_map.mp he
    obtain ⟨hb0s, hb0ov⟩ := List.mem_filter.mp hb0f
    obtain ⟨b1, hb1, hup⟩ := List.mem_map.mp hb'
    by_cases hov1 : isOverdue now b1 = true
    · rw [if_pos hov1] at hup
      rw [← hup]
      rfl
    · rw [if_neg hov1] at hup
      subst hup
      have : b1 = b0 := List.inj_on_of_nodup_map hnodup hb1 hb0s hid
      subst this
      exact absurd hb0ov hov1
/-- The code guard of routing rule 2 coincides with the claim's phrasing. -/
theorem rule2_cond_iff (b : TradeBreak) :
    (b.severity = .high ∧ b.pnlImpact.getD 0 ≠ 0 ∧ 100000 < |b.pnlImpact.getD 0|) ↔
    (b.severity = .high ∧ 100000 < |b.pnlImpact.getD 0|) := by
  constructor
  · rintro ⟨h, _, h3⟩
    exact ⟨h, h3⟩
  · rintro ⟨h, h3⟩
    refine ⟨h, ?_, h3⟩
    intro h0
    rw [h0] at h3
    norm_num at h3

/-- Key-based lookup finds exactly the unique element carrying the key. -/
theorem find?_eq_some_of_nodup_key {α β : Type} [DecidableEq β] (f : α → β)
    (l : List α) (hnodup : (l.map f).Nodup) (a : α) (ha : a ∈ l) :
    l.find? (fun x => f x = f a) = some a := by
  induction l with
  | nil => cases ha
  | cons x rest ih =>
    rw [List.map_cons, List.nodup_cons] at hnodup
    obtain ⟨hx, hrest⟩ := hnodup
    rcases List.mem_cons.mp ha with rfl | ha'
    · rw [List.find?_cons]
      simp
    · have hne : f x ≠ f a := fun h => hx (h ▸ List.mem_map.mpr ⟨a, ha', rfl⟩)
      rw [List.find?_cons, decide_eq_false hne]
      exact ih hrest ha'

/-- Claim C4. `route_exception` on an unknown break_id fails with a NotFound
error and leaves the store unchanged; on an existing break it applies the
first matching rule of the ordered default table (`routedRule`: CRITICAL →
senior_ops_manager/15 min; HIGH with |pnl_impact| > 100000 →
head_of_trading/30 min; missing_trade → trade_support_team/60 min;
price_mismatch or quantity_mismatch → ops_analyst/120 min; default →
ops_team/240 min), sets assigned_to, moves the break to IN_PROGRESS (in
particular OPEN → IN_PROGRESS), and returns
{break_id, assigned_to, escalation_time = now + escalation_minutes}. -/
theorem routeException_spec (store : List TradeBreak) (now : ℕ) (breakId : ℕ)
    (hnodup : (store.map TradeBreak.id).Nodup) :
    ((∀ b ∈ store, b.id ≠ breakId) →
      routeException store now breakId = (.error .notFound, store)) ∧
    (∀ b ∈ store, b.id = breakId →
      routeException store now breakId =
        (.ok ⟨breakId, (routedRule b).1, now + (routedRule b).2⟩,
          store.map (fun x => if x.id = breakId then
            { b with
              assignedTo := some (routedRule b).1,
              status := .inProgress } else x))) := by
  constructor
  · intro hall
    unfold routeException
    rw [List.find?_eq_none.mpr (by intro x hx; simpa using hall x hx)]
  · intro b hb hid
    subst hid
    unfold routeException
    rw [find?_eq_some_of_nodup_key TradeBreak.id store hnodup b hb]
    by_cases h1 : b.severity = .critical
    · simp only [loadRoutingRules, List.find?_cons, decide_eq_true h1]
      rw [routedRule, if_pos h1]
    · by_cases h2 : b.severity = .high ∧ 100000 < |b.pnlImpact.getD 0|
      · simp only [loadRoutingRules, List.find?_cons, decide_eq_false h1,
          decide_eq_true ((rule2_cond_iff b).mpr h2)]
        rw [routedRule, if_neg h1, if_pos h2]
      · have h2' : ¬(b.severity = .high ∧ b.pnlImpact.getD 0 ≠ 0 ∧
            100000 < |b.pnlImpact.getD 0|) := fun hc => h2 ((rule2_cond_iff b).mp hc)
        by_cases h3 : b.breakType = "missing_trade"
        · simp only [loadRoutingRules, List.find?_cons, decide_eq_false h1,
            decide_eq_false h2', decide_eq_true h3]
          rw [routedRule, if_neg h1, if_neg h2, if_pos h3]
        · by_cases h4 : b.breakType = "price_mismatch" ∨ b.breakType = "quantity_mismatch"
          · simp only [loadRoutingRules, List.find?_cons, decide_eq_false h1,
              decide_eq_false h2', decide_eq_false h3, decide_eq_true h4]
            rw [routedRule, if_neg h1, if_neg h2, if_neg h3, if_pos h4]
          · simp only [loadRoutingRules, List.find?_cons, decide_eq_false h1,
              decide_eq_false h2', decide_eq_false h3, decide_eq_false h4]
            rw [routedRule, if_neg h1, if_neg h2, if_neg h3, if_neg h4]

/-- Witness for claim C4 on a concrete one-break store. -/
theorem routeException_spec_witness :
    (([sampleBreak1].map TradeBreak.id).Nodup ∧ sampleBreak1 ∈ [sampleBreak1] ∧
      sampleBreak1.id = 7) ∧
    routeException [sampleBreak1] 2000 7 =
      (.ok ⟨7, (routedRule sampleBreak1).1, 2000 + (routedRule sampleBreak1).2⟩,
        [sampleBreak1].map (fun x => if x.id = 7 then
          { sampleBreak1 with
            assignedTo := some (routedRule sampleBreak1).1,
            status := .inProgress } else x)) :=
  ⟨⟨by decide, List.mem_singleton.mpr rfl, rfl⟩,
    (routeException_spec [sampleBreak1] 2000 7 (by decide)).2 sampleBreak1
      (List.mem_singleton.mpr rfl) rfl⟩

/-- Witness for claim C3 on a concrete one-break store. -/
theorem checkSlaBreaches_spec_witness :
    (([sampleBreak1].map TradeBreak.id).Nodup) ∧
    (checkSlaBreaches [sampleBreak1] 5000).2.length =
      ([sampleBreak1].filter (isOverdue 5000)).length :=
  ⟨by decide, (checkSlaBreaches_spec [sampleBreak1] 5000 (by decide)).2.1⟩

/-- Quantity scoring ignores the auto-match threshold. -/
theorem matchQuantity_auto_free (cfg : MatcherConfig) (x : ℚ) (q1 q2 : Option ℚ) :
    matchQuantity { cfg with autoMatchThreshold := x } q1 q2 = matchQuantity cfg q1 q2 := rfl

/-- The overall score ignores the auto-match threshold. -/
theorem computeMatchScore_overall_auto_free (ext : ExtSim) (cfg : MatcherConfig) (x : ℚ)
    (t1 t2 : Trade) :
    (computeMatchScore ext { cfg with autoMatchThreshold := x } t1 t2).overallScore =
      (computeMatchScore ext cfg t1 t2).overallScore := by
  rw [computeMatchScore_overall, computeMatchScore_overall]
  rfl

/-- One best-match step preserves agreement of candidate and overall score
across configurations differing only in the auto-match threshold. -/
theorem bestStep_rel (ext : ExtSim) (cfg : MatcherConfig) (x : ℚ) (src : Trade) (thr : ℚ)
    (acc acc' : Option Trade × Option MatchScore) (cand : Trade)
    (h1 : acc'.1 = acc.1)
    (h2 : acc'.2.map MatchScore.overallScore = acc.2.map MatchScore.overallScore) :
    (bestStep ext { cfg with autoMatchThreshold := x } src thr acc' cand).1 =
      (bestStep ext cfg src thr acc cand).1 ∧
    (bestStep ext { cfg with autoMatchThreshold := x } src thr acc' cand).2.map
        MatchScore.overallScore =
      (bestStep ext cfg src thr acc cand).2.map MatchScore.overallScore := by
  obtain ⟨a1, a2⟩ := acc
  obtain ⟨b1, b2⟩ := acc'
  simp only at h1 h2
  unfold bestStep
  dsimp only
  rw [computeMatchScore_overall_auto_free]
  split_ifs with hlt
  · exact ⟨h1, h2⟩
  · cases a2 with
    | none =>
      cases b2 with
      | none =>
        exact ⟨rfl, by simp [computeMatchScore_overall_auto_free]⟩
      | some y => simp at h2
    | some best =>
      cases b2 with
      | none => simp at h2
      | some y =>
        have hover : y.overallScore = best.overallScore := by simpa using h2
        dsimp only
        rw [hover]
        split_ifs with hcmp
        · exact ⟨rfl, by simp [computeMatchScore_overall_auto_free]⟩
        · exact ⟨h1, by simp [hover]⟩
/-- The whole best-match fold preserves that agreement. -/
theorem foldl_bestStep_rel (ext : ExtSim) (cfg : MatcherConfig) (x : ℚ) (src : Trade)
    (thr : ℚ) (cands : List Trade) :
    ∀ (acc acc' : Option Trade × Option MatchScore), acc'.1 = acc.1 →
      acc'.2.map MatchScore.overallScore = acc.2.map MatchScore.overallScore →
      (cands.foldl (bestStep ext { cfg with autoMatchThreshold := x } src thr) acc').1 =
        (cands.foldl (bestStep ext cfg src thr) acc).1 ∧
      (cands.foldl (bestStep ext { cfg with autoMatchThreshold := x } src thr) acc').2.map
          MatchScore.overallScore =
        (cands.foldl (bestStep ext cfg src thr) acc).2.map MatchScore.overallScore := by
  induction cands with
  | nil => intro acc acc' h1 h2; exact ⟨h1, h2⟩
  | cons c rest ih =>
    intro acc acc' h1 h2
    rw [List.foldl_cons, List.foldl_cons]
    have hstep := bestStep_rel ext cfg x src thr acc acc' c h1 h2
    exact ih _ _ hstep.1 hstep.2

/-- Best-match selection and its overall score ignore the auto-match
threshold. -/
theorem findBestMatch_auto_free (ext : ExtSim) (cfg : MatcherConfig) (x : ℚ) (src : Trade)
    (cands : List Trade) (mins : Option ℚ) :
    (findBestMatch ext { cfg with autoMatchThreshold := x } src cands mins).1 =
      (findBestMatch ext cfg src cands mins).1 ∧
    (findBestMatch ext { cfg with autoMatchThreshold := x } src cands mins).2.map
        MatchScore.overallScore =
      (findBestMatch ext cfg src cands mins).2.map MatchScore.overallScore := by
  unfold findBestMatch
  exact foldl_bestStep_rel ext cfg x src _ cands _ _ rfl rfl

/-- The score component of a `find_best_match` result is an actual
`compute_match_score` output for the source trade. -/
theorem findBestMatch_score_shape (ext : ExtSim) (cfg : MatcherConfig) (src : Trade)
    (cands : List Trade) (mins : Option ℚ) (sc : MatchScore)
    (h : (findBestMatch ext cfg src cands mins).2 = some sc) :
    ∃ c, sc = computeMatchScore ext cfg src c := by
  unfold findBestMatch at h
  suffices haux : ∀ (acc : Option Trade × Option MatchScore),
      (acc.2 = Option.none ∨ ∃ c, acc.2 = some (computeMatchScore ext cfg src c)) →
      ∀ sc, (cands.foldl (bestStep ext cfg src (mins.getD cfg.manualReviewThreshold)) acc).2 =
        some sc → ∃ c, sc = computeMatchScore ext cfg src c by
    exact haux (Option.none, Option.none) (Or.inl rfl) sc h
  clear h
  induction cands with
  | nil =>
    intro acc hacc sc h
    rcases hacc with hn | ⟨c, hc⟩
    · rw [List.foldl_nil] at h
      rw [hn] at h
      cases h
    · rw [List.foldl_nil] at h
      rw [hc] at h
      exact ⟨c, (Option.some_inj.mp h).symm⟩
  | cons d rest ih =>
    intro acc hacc sc h
    rw [List.foldl_cons] at h
    refine ih _ ?_ sc h
    unfold bestStep
    dsimp only
    split_ifs
    · exact hacc
    · rcases hacc with hn | ⟨c, hc⟩
      · rw [hn]
        exact Or.inr ⟨d, rfl⟩
      · rw [hc]
        dsimp only
        split_ifs
        · exact Or.inr ⟨d, rfl⟩
        · exact Or.inr ⟨c, hc⟩
/-- The greedy pairing (trades and overall scores) ignores the auto-match
threshold. -/
theorem reconLoop_auto_free (ext : ExtSim) (cfg : MatcherConfig) (x : ℚ)
    (trades2 trades1 : List Trade) :
    ∀ used : List ℕ,
      (reconLoop ext { cfg with autoMatchThreshold := x } trades2 trades1 used).map
        (fun p => (p.1, p.2.1, p.2.2.overallScore)) =
      (reconLoop ext cfg trades2 trades1 used).map
        (fun p => (p.1, p.2.1, p.2.2.overallScore)) := by
  induction trades1 with
  | nil => intro used; rfl
  | cons t1 rest ih =>
    intro used
    unfold reconLoop
    dsimp only
    obtain ⟨hfst, hsnd⟩ := findBestMatch_auto_free ext cfg x t1
      (trades2.filter fun t => !used.contains t.id) Option.none
    rcases h : findBestMatch ext cfg t1 (trades2.filter fun t => !used.contains t.id)
      Option.none with ⟨ob, os⟩
    rcases h' : findBestMatch ext { cfg with autoMatchThreshold := x } t1
      (trades2.filter fun t => !used.contains t.id) Option.none with ⟨ob', os'⟩
    rw [h, h'] at hfst hsnd
    simp only at hfst hsnd
    subst hfst
    cases ob' with
    | none => exact ih used
    | some best =>
      cases os with
      | none =>
        cases os' with
        | none => exact ih used
        | some y => simp at hsnd
      | some score =>
        cases os' with
        | none => simp at hsnd
        | some score' =>
          have hover : score'.overallScore = score.overallScore := by simpa using hsnd
          dsimp only
          cases hfind : trades2.find? (fun t => t.id = best.id) with
          | none => exact ih used
          | some t2 =>
            rw [List.map_cons, List.map_cons, ih (best.id :: used), hover]
/-- Every score stored in a loop pair is a `compute_match_score` output for
the paired source-one trade. -/
theorem reconLoop_score_shape (ext : ExtSim) (cfg : MatcherConfig)
    (trades2 trades1 : List Trade) :
    ∀ (used : List ℕ) (p : Trade × Trade × MatchScore),
      p ∈ reconLoop ext cfg trades2 trades1 used →
      ∃ c, p.2.2 = computeMatchScore ext cfg p.1 c := by
  induction trades1 with
  | nil => intro used p hp; cases hp
  | cons t1 rest ih =>
    intro used p hp
    unfold reconLoop at hp
    dsimp only at hp
    rcases h : findBestMatch ext cfg t1 (trades2.filter fun t => !used.contains t.id)
      Option.none with ⟨ob, os⟩
    rw [h] at hp
    cases ob with
    | none => exact ih used p hp
    | some best =>
      cases os with
      | none => exact ih used p hp
      | some score =>
        dsimp only at hp
        cases hfind : trades2.find? (fun t => t.id = best.id) with
        | none =>
          rw [hfind] at hp
          exact ih used p hp
        | some t2 =>
          rw [hfind] at hp
          rcases List.mem_cons.mp hp with rfl | hp'
          · obtain ⟨c, hc⟩ := findBestMatch_score_shape ext cfg t1 _ Option.none score
              (by rw [h])
            exact ⟨c, hc⟩
          · exact ih _ p hp'

/-- The auto-matched count of the loop, as a threshold count over the
projected pair list. -/
theorem pairsAutoCount (ext : ExtSim) (cfg : MatcherConfig)
    (trades2 trades1 : List Trade) (used : List ℕ) :
    ((reconLoop ext cfg trades2 trades1 used).filter
        (fun p => p.2.2.confidenceLevel = "auto")).length =
    List.countP (fun trip => cfg.autoMatchThreshold ≤ trip.2.2)
      ((reconLoop ext cfg trades2 trades1 used).map
        (fun p => (p.1, p.2.1, p.2.2.overallScore))) := by
  rw [List.countP_map, ← List.countP_eq_length_filter]
  apply List.countP_congr
  intro p hp
  simp only [Function.comp, decide_eq_true_eq]
  obtain ⟨c, hc⟩ := reconLoop_score_shape ext cfg trades2 trades1 used p hp
  rw [hc]
  exact computeMatchScore_confidence_auto ext cfg p.1 c
/-- Claim C8. Raising `auto_match_threshold` never increases the
`auto_matched` count a reconciliation run reports on the same data: for two
configurations differing only in `auto_match_threshold` with thresholds
a ≤ b, the run with b reports at most as many auto matches as the run with
a. -/
theorem autoMatched_antitone (ext : ExtSim) (cfg : MatcherConfig) (b : ℚ) (env : SlaEnv)
    (now : ℕ) (store : List Trade) (day : ℕ) (s1 s2 : TradeSource)
    (hb : cfg.autoMatchThreshold ≤ b) :
    (runReconciliation ext { cfg with autoMatchThreshold := b } env now store day
        s1 s2).stats.autoMatched ≤
    (runReconciliation ext cfg env now store day s1 s2).stats.autoMatched := by
  unfold runReconciliation
  dsimp only
  rw [pairsAutoCount, pairsAutoCount, reconLoop_auto_free]
  apply List.countP_mono_left
  intro trip _ htrip
  simp only [decide_eq_true_eq] at htrip ⊢
  exact le_trans hb htrip

/-- Witness for claim C8 on a concrete two-trade store. -/
theorem autoMatched_antitone_witness :
    defaultConfig.autoMatchThreshold ≤ (97/100 : ℚ) ∧
    (runReconciliation extSimZero { defaultConfig with autoMatchThreshold := 97/100 }
        defaultSlaEnv 1000 [sampleTrade1, sampleTrade2] 100 .oms .custodian).stats.autoMatched ≤
    (runReconciliation extSimZero defaultConfig defaultSlaEnv 1000
        [sampleTrade1, sampleTrade2] 100 .oms .custodian).stats.autoMatched :=
  ⟨by norm_num [defaultConfig], autoMatched_antitone extSimZero defaultConfig (97/100)
    defaultSlaEnv 1000 [sampleTrade1, sampleTrade2] 100 .oms .custodian
    (by norm_num [defaultConfig])⟩

/-- Appending past an all-satisfying prefix. -/
theorem takeWhile_append_all {p : Char → Bool} (l1 l2 : List Char)
    (h : ∀ c ∈ l1, p c = true) :
    (l1 ++ l2).takeWhile p = l1 ++ l2.takeWhile p := by
  rw [List.takeWhile_append, if_pos]
  rw [List.takeWhile_eq_self_iff.mpr h]

theorem dropWhile_append_all {p : Char → Bool} (l1 l2 : List Char)
    (h : ∀ c ∈ l1, p c = true) :
    (l1 ++ l2).dropWhile p = l2.dropWhile p := by
  rw [List.dropWhile_append, if_pos]
  rw [List.isEmpty_iff]
  exact List.dropWhile_eq_nil_iff.mpr h

/-- Claim C9, counterexample: the source regex strips a suffix of ONE capital
letter (`BRK.A` → `BRK`) where the claim demands two to four, and the source
removes only internal spaces, not all internal whitespace (`A\tB` is left
unchanged where the claim demands `AB`). -/
theorem normalizeSymbol_claimed_counterexample :
    normalize_symbol (some "BRK.A") = "BRK" ∧
    normalizeSymbolClaimed (some "BRK.A") = "BRK.A" ∧
    normalize_symbol (some "A\tB") = "A\tB" ∧
    normalizeSymbolClaimed (some "A\tB") = "AB" :=
  ⟨rfl, rfl, rfl, rfl⟩

/-- Claim C9, amended: for every input string, `normalize_symbol` uppercases
and strips it, removes a trailing exchange suffix exactly when the stripped
uppercased string ends in a dot followed by ONE to four capital letters (in
which case the dot and the letters are removed), and then removes internal
space characters; null or empty input yields the empty string. -/
theorem normalizeSymbol_characterization :
    (normalize_symbol Option.none = "" ∧ normalize_symbol (some "") = "") ∧
    (∀ s : String, s ≠ "" →
      (∀ pre caps, pyStrip (pyUpper s.data) = pre ++ '.' :: caps → caps ≠ [] →
        caps.length ≤ 4 → (∀ c ∈ caps, isUpperAZ c = true) →
        normalize_symbol (some s) = String.mk (pre.filter (fun c => c ≠ ' '))) ∧
      ((¬ ∃ pre caps, pyStrip (pyUpper s.data) = pre ++ '.' :: caps ∧ caps ≠ [] ∧
          caps.length ≤ 4 ∧ ∀ c ∈ caps, isUpperAZ c = true) →
        normalize_symbol (some s) = String.mk ((pyStrip (pyUpper s.data)).filter
          (fun c => c ≠ ' ')))) := by
  refine ⟨⟨rfl, rfl⟩, fun s hs => ⟨?_, ?_⟩⟩
  · intro pre caps hdec hne hlen hcaps
    have hrev : (pyStrip (pyUpper s.data)).reverse = caps.reverse ++ '.' :: pre.reverse := by
      rw [hdec]
      simp
    have hcapsrev : ∀ c ∈ caps.reverse, isUpperAZ c = true := by
      intro c hc
      exact hcaps c (List.mem_reverse.mp hc)
    have htake : (pyStrip (pyUpper s.data)).reverse.takeWhile isUpperAZ = caps.reverse := by
      rw [hrev, takeWhile_append_all _ _ hcapsrev, List.takeWhile_cons]
      simp [isUpperAZ, Char.isUpper]
    have hdrop : (pyStrip (pyUpper s.data)).reverse.dropWhile isUpperAZ = '.' :: pre.reverse := by
      rw [hrev, dropWhile_append_all _ _ hcapsrev, List.dropWhile_cons_of_neg]
      simp [isUpperAZ, Char.isUpper]
    unfold normalize_symbol
    dsimp only
    rw [if_neg hs]
    unfold normalizeSymbolL dropExchangeSuffix
    rw [htake, hdrop]
    rw [if_pos]
    · simp
    · refine ⟨?_, ?_, rfl⟩
      · simpa using List.length_pos.mpr (fun h => hne (by simpa using congrArg List.reverse h))
      · simpa using hlen
  · intro hnone
    unfold normalize_symbol
    dsimp only
    rw [if_neg hs]
    unfold normalizeSymbolL dropExchangeSuffix
    rw [if_neg]
    intro ⟨h1, h2, h3⟩
    set t := pyStrip (pyUpper s.data) with ht
    have hsplit : t.reverse.takeWhile isUpperAZ ++ t.reverse.dropWhile isUpperAZ = t.reverse :=
      List.takeWhile_append_dropWhile _ _
    obtain ⟨c, tl, htl⟩ : ∃ c tl, t.reverse.dropWhile isUpperAZ = c :: tl := by
      cases hx : t.reverse.dropWhile isUpperAZ with
      | nil => rw [hx] at h3; cases h3
      | cons c tl => exact ⟨c, tl, rfl⟩
    have hc : c = '.' := by
      rw [htl] at h3
      simpa using h3
    subst hc
    apply hnone
    refine ⟨tl.reverse, (t.reverse.takeWhile isUpperAZ).reverse, ?_, ?_, ?_, ?_⟩
    · conv_lhs => rw [← List.reverse_reverse t, ← hsplit, htl]
      simp
    · intro h
      have hlen0 := congrArg List.length h
      simp only [List.length_reverse, List.length_nil] at hlen0
      omega
    · simpa using h2
    · intro ch hch
      exact List.mem_takeWhile_imp (List.mem_reverse.mp hch)
/-- Witness for the amended claim C9 at a concrete symbol. -/
theorem normalizeSymbol_characterization_witness :
    (("ab.cd" : String) ≠ "" ∧
      pyStrip (pyUpper ("ab.cd" : String).data) = ['A','B'] ++ '.' :: ['C','D'] ∧
      (['C','D'] : List Char) ≠ [] ∧ (['C','D'] : List Char).length ≤ 4 ∧
      (∀ c ∈ (['C','D'] : List Char), isUpperAZ c = true)) ∧
    normalize_symbol (some "ab.cd") = String.mk (['A','B'].filter (fun c => c ≠ ' ')) :=
  ⟨⟨by decide, rfl, by decide, by decide, by decide⟩,
    (normalizeSymbol_characterization.2 "ab.cd" (by decide)).1 ['A','B'] ['C','D'] rfl
      (by decide) (by decide) (by decide)⟩

/-- Functional updates of the run never change a trade's id or the fields the
pairing invariant reads. -/
theorem normalizeStep_preserves (s1 s2 : TradeSource) (day : ℕ) (t : Trade) :
    (normalizeStep s1 s2 day t).id = t.id ∧
    (normalizeStep s1 s2 day t).sourceSystem = t.sourceSystem ∧
    (normalizeStep s1 s2 day t).tradeDay = t.tradeDay ∧
    (normalizeStep s1 s2 day t).isMatched = t.isMatched ∧
    (normalizeStep s1 s2 day t).matchedTradeId = t.matchedTradeId ∧
    (normalizeStep s1 s2 day t).matchConfidence = t.matchConfidence := by
  unfold normalizeStep normalizeTradeFields
  split_ifs <;> exact ⟨rfl, rfl, rfl, rfl, rfl, rfl⟩

theorem applyMatchPairs_id (ps : List (ℕ × ℕ × ℚ)) (t : Trade) :
    (applyMatchPairs ps t).id = t.id := by
  unfold applyMatchPairs
  cases ps.find? (fun p => p.1 = t.id) with
  | some p => rfl
  | none =>
    cases ps.find? (fun p => p.2.1 = t.id) with
    | some p => rfl
    | none => rfl

/-- A best-match result is one of the candidates. -/
theorem findBestMatch_mem (ext : ExtSim) (cfg : MatcherConfig) (src : Trade)
    (cands : List Trade) (mins : Option ℚ) (best : Trade)
    (h : (findBestMatch ext cfg src cands mins).1 = some best) : best ∈ cands := by
  unfold findBestMatch at h
  suffices haux : ∀ (acc : Option Trade × Option MatchScore),
      (∀ x, acc.1 = some x → x ∈ cands) →
      ∀ y, (cands.foldl (bestStep ext cfg src (mins.getD cfg.manualReviewThreshold)) acc).1 =
        some y → y ∈ cands by
    exact haux (Option.none, Option.none) (by intro x hx; cases hx) best h
  clear h
  suffices hgen : ∀ (l : List Trade), (∀ c ∈ l, c ∈ cands) →
      ∀ (acc : Option Trade × Option MatchScore), (∀ x, acc.1 = some x → x ∈ cands) →
      ∀ y, (l.foldl (bestStep ext cfg src (mins.getD cfg.manualReviewThreshold)) acc).1 =
        some y → y ∈ cands by
    exact fun acc hacc => hgen cands (fun c hc => hc) acc hacc
  intro l
  induction l with
  | nil => intro _ acc hacc y hy; exact hacc y hy
  | cons c rest ih =>
    intro hsub acc hacc y hy
    rw [List.foldl_cons] at hy
    refine ih (fun d hd => hsub d (List.mem_cons_of_mem c hd)) _ ?_ y hy
    intro x hx
    unfold bestStep at hx
    dsimp only at hx
    split_ifs at hx
    · exact hacc x hx
    · rcases hacc2 : acc.2 with _ | best0
      · rw [hacc2] at hx
        dsimp only at hx
        injection hx with hx
        exact hx ▸ hsub c (List.mem_cons_self c rest)
      · rw [hacc2] at hx
        dsimp only at hx
        split_ifs at hx
        · injection hx with hx
          exact hx ▸ hsub c (List.mem_cons_self c rest)
        · exact hacc x hx
/-- Loop pairs: the source₁ member comes from the iterated pool, the source₂
member from the candidate pool with an id outside the used set; and the
source₂ ids of a loop run are distinct. -/
theorem reconLoop_snd_props (ext : ExtSim) (cfg : MatcherConfig) (trades2 : List Trade) :
    ∀ (trades1 : List Trade) (used : List ℕ),
      (∀ p ∈ reconLoop ext cfg trades2 trades1 used,
        p.1 ∈ trades1 ∧ p.2.1 ∈ trades2 ∧ p.2.1.id ∉ used) ∧
      ((reconLoop ext cfg trades2 trades1 used).map (fun p => p.2.1.id)).Nodup := by
  intro trades1
  induction trades1 with
  | nil => intro used; exact ⟨fun p hp => absurd hp (List.not_mem_nil p), List.nodup_nil⟩
  | cons t1 rest ih =>
    intro used
    unfold reconLoop
    dsimp only
    rcases h : findBestMatch ext cfg t1 (trades2.filter fun t => !used.contains t.id)
      Option.none with ⟨ob, os⟩
    cases ob with
    | none =>
      refine ⟨fun p hp => ?_, (ih used).2⟩
      obtain ⟨h1, h2, h3⟩ := (ih used).1 p hp
      exact ⟨List.mem_cons_of_mem t1 h1, h2, h3⟩
    | some best =>
      cases os with
      | none =>
        refine ⟨fun p hp => ?_, (ih used).2⟩
        obtain ⟨h1, h2, h3⟩ := (ih used).1 p hp
        exact ⟨List.mem_cons_of_mem t1 h1, h2, h3⟩
      | some score =>
        dsimp only
        have hbest : best ∈ trades2.filter fun t => !used.contains t.id :=
          findBestMatch_mem ext cfg t1 _ Option.none best (by rw [h])
        have hbestused : best.id ∉ used := by
          have := (List.mem_filter.mp hbest).2
          simpa [List.elem_iff] using this
        cases hfind : trades2.find? (fun t => t.id = best.id) with
        | none =>
          refine ⟨fun p hp => ?_, (ih used).2⟩
          obtain ⟨h1, h2, h3⟩ := (ih used).1 p hp
          exact ⟨List.mem_cons_of_mem t1 h1, h2, h3⟩
        | some t2 =>
          have ht2mem : t2 ∈ trades2 := List.mem_of_find?_eq_some hfind
          have ht2id : t2.id = best.id := by
            have := List.find?_some hfind
            simpa using this
          constructor
          · intro p hp
            rcases List.mem_cons.mp hp with rfl | hp'
            · exact ⟨List.mem_cons_self t1 rest, ht2mem, by rw [ht2id]; exact hbestused⟩
            · obtain ⟨h1, h2, h3⟩ := (ih (best.id :: used)).1 p hp'
              exact ⟨List.mem_cons_of_mem t1 h1, h2, fun hc => h3 (List.mem_cons_of_mem _ hc)⟩
          · rw [List.map_cons, List.nodup_cons]
            constructor
            · intro hc
              obtain ⟨p, hp, hpid⟩ := List.mem_map.mp hc
              have := ((ih (best.id :: used)).1 p hp).2.2
              rw [hpid, ht2id] at this
              exact this (List.mem_cons_self _ _)
            · exact (ih (best.id :: used)).2
/-- The source₁ ids of a loop run are distinct (each pool trade is visited
once). -/
theorem reconLoop_fst_nodup (ext : ExtSim) (cfg : MatcherConfig) (trades2 : List Trade) :
    ∀ (trades1 : List Trade) (used : List ℕ), (trades1.map Trade.id).Nodup →
      ((reconLoop ext cfg trades2 trades1 used).map (fun p => p.1.id)).Nodup := by
  intro trades1
  induction trades1 with
  | nil => intro used _; exact List.nodup_nil
  | cons t1 rest ih =>
    intro used hnodup
    rw [List.map_cons, List.nodup_cons] at hnodup
    obtain ⟨ht1, hrest⟩ := hnodup
    unfold reconLoop
    dsimp only
    rcases h : findBestMatch ext cfg t1 (trades2.filter fun t => !used.contains t.id)
      Option.none with ⟨ob, os⟩
    cases ob with
    | none => exact ih used hrest
    | some best =>
      cases os with
      | none => exact ih used hrest
      | some score =>
        dsimp only
        cases hfind : trades2.find? (fun t => t.id = best.id) with
        | none => exact ih used hrest
        | some t2 =>
          rw [List.map_cons, List.nodup_cons]
          refine ⟨?_, ih (best.id :: used) hrest⟩
          intro hc
          obtain ⟨p, hp, hpid⟩ := List.mem_map.mp hc
          have hpmem := ((reconLoop_snd_props ext cfg trades2 rest (best.id :: used)).1 p hp).1
          exact ht1 (List.mem_map.mpr ⟨p.1, hpmem, hpid⟩)
/-- Update of a trade standing on the source₁ side of a pair. -/
theorem applyMatchPairs_of_fst (ps : List (ℕ × ℕ × ℚ))
    (hnodup : (ps.map (fun q => q.1)).Nodup) (p : ℕ × ℕ × ℚ) (hp : p ∈ ps)
    (t : Trade) (hid : t.id = p.1) :
    applyMatchPairs ps t =
      { t with
        isMatched := true, matchedTradeId := some p.2.1, matchConfidence := some p.2.2 } := by
  unfold applyMatchPairs
  have hfind : ps.find? (fun q => q.1 = t.id) = some p := by
    rw [hid]
    exact find?_eq_some_of_nodup_key (fun q => q.1) ps hnodup p hp
  rw [hfind]

/-- Update of a trade standing on the source₂ side of a pair. -/
theorem applyMatchPairs_of_snd (ps : List (ℕ × ℕ × ℚ))
    (hsnd : (ps.map (fun q => q.2.1)).Nodup) (p : ℕ × ℕ × ℚ) (hp : p ∈ ps)
    (t : Trade) (hid : t.id = p.2.1) (hnotfst : t.id ∉ ps.map (fun q => q.1)) :
    applyMatchPairs ps t =
      { t with
        isMatched := true, matchedTradeId := some p.1, matchConfidence := some p.2.2 } := by
  unfold applyMatchPairs
  have h1 : ps.find? (fun q => q.1 = t.id) = Option.none :=
    List.find?_eq_none.mpr (fun q hq hcon =>
      hnotfst (List.mem_map.mpr ⟨q, hq, by simpa using hcon⟩))
  rw [h1]
  have h2 : ps.find? (fun q => q.2.1 = t.id) = some p := by
    rw [hid]
    exact find?_eq_some_of_nodup_key (fun q => q.2.1) ps hsnd p hp
  rw [h2]

/-- A trade on neither side of any pair is untouched. -/
theorem applyMatchPairs_of_not_mem (ps : List (ℕ × ℕ × ℚ)) (t : Trade)
    (h1 : t.id ∉ ps.map (fun q => q.1)) (h2 : t.id ∉ ps.map (fun q => q.2.1)) :
    applyMatchPairs ps t = t := by
  unfold applyMatchPairs
  rw [List.find?_eq_none.mpr (fun q hq hcon =>
    h1 (List.mem_map.mpr ⟨q, hq, by simpa using hcon⟩))]
  rw [List.find?_eq_none.mpr (fun q hq hcon =>
    h2 (List.mem_map.mpr ⟨q, hq, by simpa using hcon⟩))]

/-- In a store with distinct ids satisfying the pairing invariant, each
matched trade is pointed at by exactly one trade. -/
theorem pairingInv_unique_pointer (store : List Trade)
    (hnodup : (store.map Trade.id).Nodup) (hinv : PairingInv store) :
    ∀ t ∈ store, t.isMatched = true →
      ∃! u, u ∈ store ∧ u.matchedTradeId = some t.id := by
  intro t ht hm
  obtain ⟨u, hu, hpaired⟩ := (hinv t ht).1 hm
  refine ⟨u, ⟨hu, hpaired.2.2.2.1⟩, ?_⟩
  rintro v ⟨hv, hvp⟩
  have hvm : v.isMatched = true := by
    cases hvm' : v.isMatched with
    | true => rfl
    | false =>
      have hnone := (hinv v hv).2 hvm'
      rw [hnone] at hvp
      cases hvp
  obtain ⟨w, hw, hwp⟩ := (hinv v hv).1 hvm
  have hwid : w.id = t.id := by
    have h1 := hwp.2.2.1
    rw [hvp] at h1
    exact (Option.some_inj.mp h1.symm)
  have hwt : w = t := List.inj_on_of_nodup_map hnodup hw ht hwid
  subst hwt
  have h2 : w.matchedTradeId = some v.id := hwp.2.2.2.1
  have h3 : w.matchedTradeId = some u.id := hpaired.2.2.1
  have : v.id = u.id := by
    rw [h2] at h3
    exact Option.some_inj.mp h3
  exact List.inj_on_of_nodup_map hnodup hv hu this

/-- The pairing invariant survives any elementwise rewrite that preserves id
and match state. -/
theorem pairingInv_map (store : List Trade) (F : Trade → Trade)
    (hF : ∀ t, (F t).id = t.id ∧ (F t).isMatched = t.isMatched ∧
      (F t).matchedTradeId = t.matchedTradeId ∧ (F t).matchConfidence = t.matchConfidence)
    (hinv : PairingInv store) : PairingInv (store.map F) := by
  intro t' ht'
  obtain ⟨t, ht, rfl⟩ := List.mem_map.mp ht'
  obtain ⟨hid, hm, hmt, hc⟩ := hF t
  constructor
  · intro hmatched
    rw [hm] at hmatched
    obtain ⟨u, hu, hp⟩ := (hinv t ht).1 hmatched
    obtain ⟨hidu, hmu, hmtu, hcu⟩ := hF u
    refine ⟨F u, List.mem_map.mpr ⟨u, hu, rfl⟩, ?_⟩
    exact ⟨by rw [hm]; exact hp.1, by rw [hmu]; exact hp.2.1,
      by rw [hmt, hidu]; exact hp.2.2.1, by rw [hmtu, hid]; exact hp.2.2.2.1,
      by rw [hc, hcu]; exact hp.2.2.2.2⟩
  · intro hunm
    rw [hm] at hunm
    rw [hmt]
    exact (hinv t ht).2 hunm

/-- Elementwise id preservation carries the id list across a map. -/
theorem map_trade_id_eq (store : List Trade) (F : Trade → Trade)
    (hF : ∀ t, (F t).id = t.id) :
    (store.map F).map Trade.id = store.map Trade.id := by
  rw [List.map_map]
  exact List.map_congr_left (fun t _ => hF t)
/-- Membership in a fetched pool. -/
theorem mem_fetchUnmatchedTrades (store : List Trade) (src : TradeSource) (day : ℕ)
    (t : Trade) :
    t ∈ fetchUnmatchedTrades store src day ↔
      t ∈ store ∧ t.sourceSystem = src ∧ t.tradeDay = day ∧ t.isMatched = false := by
  simp [fetchUnmatchedTrades, List.mem_filter, and_assoc]

/-- Claim C2. After any reconciliation run (store with unique ids, two
distinct sources, pairing invariant on entry), pairing is one-to-one: every
matched trade has a mutual partner carrying the same match_confidence
(`PairingInv`), each source₂ trade is pointed at by at most one trade, and
for every trade with is_matched = true exactly one trade of the store has
matched_trade_id equal to it (and vice versa, by symmetry of the
invariant). -/
theorem runReconciliation_one_to_one (ext : ExtSim) (cfg : MatcherConfig) (env : SlaEnv)
    (now : ℕ) (store : List Trade) (day : ℕ) (s1 s2 : TradeSource)
    (hnodup : (store.map Trade.id).Nodup) (hss : s1 ≠ s2) (hinv : PairingInv store) :
    PairingInv (runReconciliation ext cfg env now store day s1 s2).store ∧
    (∀ t ∈ (runReconciliation ext cfg env now store day s1 s2).store, t.isMatched = true →
      ∃! u, u ∈ (runReconciliation ext cfg env now store day s1 s2).store ∧
        u.matchedTradeId = some t.id) := by
  have hrunstore : (runReconciliation ext cfg env now store day s1 s2).store =
      (store.map (normalizeStep s1 s2 day)).map
        (applyMatchPairs ((reconLoop ext cfg
            (fetchUnmatchedTrades (store.map (normalizeStep s1 s2 day)) s2 day)
            (fetchUnmatchedTrades (store.map (normalizeStep s1 s2 day)) s1 day) []).map
          (fun p => (p.1.id, p.2.1.id, p.2.2.overallScore)))) := rfl
  set store1 := store.map (normalizeStep s1 s2 day) with hstore1def
  set trades1 := fetchUnmatchedTrades store1 s1 day with htrades1def
  set trades2 := fetchUnmatchedTrades store1 s2 day with htrades2def
  set pairs := reconLoop ext cfg trades2 trades1 [] with hpairsdef
  set idPairs := pairs.map (fun p => (p.1.id, p.2.1.id, p.2.2.overallScore)) with hidPairsdef
  -- basic facts
  have hnodup1 : (store1.map Trade.id).Nodup := by
    rw [hstore1def, map_trade_id_eq store _ (fun t => (normalizeStep_preserves s1 s2 day t).1)]
    exact hnodup
  have hinj1 : ∀ a ∈ store1, ∀ b ∈ store1, a.id = b.id → a = b :=
    fun a ha b hb => List.inj_on_of_nodup_map hnodup1 ha hb
  have hinv1 : PairingInv store1 := by
    rw [hstore1def]
    refine pairingInv_map store _ (fun t => ?_) hinv
    obtain ⟨h1, _, _, h4, h5, h6⟩ := normalizeStep_preserves s1 s2 day t
    exact ⟨h1, h4, h5, h6⟩
  have htr1sub : ∀ t ∈ trades1, t ∈ store1 ∧ t.sourceSystem = s1 ∧ t.isMatched = false := by
    intro t ht
    obtain ⟨h1, h2, _, h4⟩ := (mem_fetchUnmatchedTrades store1 s1 day t).mp ht
    exact ⟨h1, h2, h4⟩
  have htr2sub : ∀ t ∈ trades2, t ∈ store1 ∧ t.sourceSystem = s2 ∧ t.isMatched = false := by
    intro t ht
    obtain ⟨h1, h2, _, h4⟩ := (mem_fetchUnmatchedTrades store1 s2 day t).mp ht
    exact ⟨h1, h2, h4⟩
  have htr1nodup : (trades1.map Trade.id).Nodup := by
    rw [htrades1def]
    exact hnodup1.sublist ((List.filter_sublist _).map Trade.id)
  -- pair-level facts
  have hsndp := reconLoop_snd_props ext cfg trades2 trades1 []
  have hfstnodup0 := reconLoop_fst_nodup ext cfg trades2 trades1 [] htr1nodup
  have hfstIds : idPairs.map (fun q => q.1) = pairs.map (fun p => p.1.id) := by
    rw [hidPairsdef, List.map_map]
    rfl
  have hsndIds : idPairs.map (fun q => q.2.1) = pairs.map (fun p => p.2.1.id) := by
    rw [hidPairsdef, List.map_map]
    rfl
  have hfstnodup : (idPairs.map (fun q => q.1)).Nodup := by
    rw [hfstIds]; exact hfstnodup0
  have hsndnodup : (idPairs.map (fun q => q.2.1)).Nodup := by
    rw [hsndIds]; exact hsndp.2
  -- a pair's two sides carry ids of trades of the two distinct sources
  have hdisj : ∀ q ∈ idPairs, ∀ r ∈ idPairs, q.1 ≠ r.2.1 := by
    rw [hidPairsdef]
    rintro q hq r hr heq
    obtain ⟨p, hp, rfl⟩ := List.mem_map.mp hq
    obtain ⟨p', hp', rfl⟩ := List.mem_map.mp hr
    have h1 := (hsndp.1 p hp).1
    have h2 := (hsndp.1 p' hp').2.1
    obtain ⟨hm1, hsrc1, _⟩ := htr1sub p.1 h1
    obtain ⟨hm2, hsrc2, _⟩ := htr2sub p'.2.1 h2
    have : p.1 = p'.2.1 := hinj1 _ hm1 _ hm2 heq
    rw [this, hsrc2] at hsrc1
    exact hss hsrc1.symm
  rw [hrunstore]
  have hstorenodup : ((store1.map (applyMatchPairs idPairs)).map Trade.id).Nodup := by
    rw [map_trade_id_eq _ _ (applyMatchPairs_id idPairs)]
    exact hnodup1
  have hmemPairs : ∀ p ∈ pairs, (p.1.id, p.2.1.id, p.2.2.overallScore) ∈ idPairs := by
    intro p hp
    rw [hidPairsdef]
    exact List.mem_map.mpr ⟨p, hp, rfl⟩
  have hstoreP : PairingInv (store1.map (applyMatchPairs idPairs)) := by
    intro t' ht'
    obtain ⟨t, ht, rfl⟩ := List.mem_map.mp ht'
    by_cases hf : t.id ∈ idPairs.map (fun q => q.1)
    · -- t is the source₁ member of a pair
      rw [hfstIds] at hf
      obtain ⟨p, hp, hqid⟩ := List.mem_map.mp hf
      have hp1mem : p.1 ∈ store1 := (htr1sub p.1 (hsndp.1 p hp).1).1
      have hteq : t = p.1 := hinj1 t ht p.1 hp1mem hqid.symm
      have happ : applyMatchPairs idPairs t =
          { t with
            isMatched := true, matchedTradeId := some p.2.1.id,
            matchConfidence := some p.2.2.overallScore } :=
        applyMatchPairs_of_fst idPairs hfstnodup (p.1.id, p.2.1.id, p.2.2.overallScore)
          (hmemPairs p hp) t hqid.symm
      rw [happ]
      constructor
      · intro _
        have hp2mem : p.2.1 ∈ store1 := (htr2sub p.2.1 (hsndp.1 p hp).2.1).1
        have hp2notfst : p.2.1.id ∉ idPairs.map (fun q => q.1) := by
          intro hc
          obtain ⟨r, hr, hrid⟩ := List.mem_map.mp hc
          exact hdisj r hr (p.1.id, p.2.1.id, p.2.2.overallScore) (hmemPairs p hp) hrid
        have happ2 : applyMatchPairs idPairs p.2.1 =
            { p.2.1 with
              isMatched := true, matchedTradeId := some p.1.id,
              matchConfidence := some p.2.2.overallScore } :=
          applyMatchPairs_of_snd idPairs hsndnodup (p.1.id, p.2.1.id, p.2.2.overallScore)
            (hmemPairs p hp) p.2.1 rfl hp2notfst
        refine ⟨applyMatchPairs idPairs p.2.1, List.mem_map.mpr ⟨p.2.1, hp2mem, rfl⟩, ?_⟩
        rw [happ2]
        refine ⟨rfl, rfl, rfl, ?_, rfl⟩
        show some p.1.id = some t.id
        rw [hteq]
      · intro hcon
        simp at hcon
    · by_cases hs : t.id ∈ idPairs.map (fun q => q.2.1)
      · -- t is the source₂ member of a pair
        rw [hsndIds] at hs
        obtain ⟨p, hp, hqid⟩ := List.mem_map.mp hs
        have hp2mem : p.2.1 ∈ store1 := (htr2sub p.2.1 (hsndp.1 p hp).2.1).1
        have hteq : t = p.2.1 := hinj1 t ht p.2.1 hp2mem hqid.symm
        have happ : applyMatchPairs idPairs t =
            { t with
              isMatched := true, matchedTradeId := some p.1.id,
              matchConfidence := some p.2.2.overallScore } :=
          applyMatchPairs_of_snd idPairs hsndnodup (p.1.id, p.2.1.id, p.2.2.overallScore)
            (hmemPairs p hp) t hqid.symm hf
        rw [happ]
        constructor
        · intro _
          have hp1mem : p.1 ∈ store1 := (htr1sub p.1 (hsndp.1 p hp).1).1
          have happ2 : applyMatchPairs idPairs p.1 =
              { p.1 with
                isMatched := true, matchedTradeId := some p.2.1.id,
                matchConfidence := some p.2.2.overallScore } :=
            applyMatchPairs_of_fst idPairs hfstnodup (p.1.id, p.2.1.id, p.2.2.overallScore)
              (hmemPairs p hp) p.1 rfl
          refine ⟨applyMatchPairs idPairs p.1, List.mem_map.mpr ⟨p.1, hp1mem, rfl⟩, ?_⟩
          rw [happ2]
          refine ⟨rfl, rfl, ?_, ?_, rfl⟩
          · show some p.1.id = some p.1.id
            rfl
          · show some p.2.1.id = some t.id
            rw [hteq]
        · intro hcon
          simp at hcon
      · -- t is untouched by this run
        rw [applyMatchPairs_of_not_mem idPairs t hf hs]
        constructor
        · intro hm
          obtain ⟨u, hu, hpair⟩ := (hinv1 t ht).1 hm
          have hufst : u.id ∉ idPairs.map (fun q => q.1) := by
            intro hc
            rw [hfstIds] at hc
            obtain ⟨p, hp, hpid⟩ := List.mem_map.mp hc
            have hp1 := htr1sub p.1 (hsndp.1 p hp).1
            have heq : p.1 = u := hinj1 p.1 hp1.1 u hu hpid
            have : u.isMatched = false := heq ▸ hp1.2.2
            rw [hpair.2.1] at this
            cases this
          have husnd : u.id ∉ idPairs.map (fun q => q.2.1) := by
            intro hc
            rw [hsndIds] at hc
            obtain ⟨p, hp, hpid⟩ := List.mem_map.mp hc
            have hp2 := htr2sub p.2.1 (hsndp.1 p hp).2.1
            have heq : p.2.1 = u := hinj1 p.2.1 hp2.1 u hu hpid
            have : u.isMatched = false := heq ▸ hp2.2.2
            rw [hpair.2.1] at this
            cases this
          exact ⟨u, List.mem_map.mpr ⟨u, hu, applyMatchPairs_of_not_mem idPairs u hufst husnd⟩,
            hpair⟩
        · intro hm
          exact (hinv1 t ht).2 hm
  exact ⟨hstoreP, pairingInv_unique_pointer _ hstorenodup hstoreP⟩

/-- Witness for claim C2 on a concrete two-trade store that auto-matches. -/
theorem runReconciliation_one_to_one_witness :
    (([sampleTrade1, sampleTrade2].map Trade.id).Nodup ∧
      TradeSource.oms ≠ TradeSource.custodian ∧ PairingInv [sampleTrade1, sampleTrade2]) ∧
    PairingInv (runReconciliation extSimZero defaultConfig defaultSlaEnv 1000
      [sampleTrade1, sampleTrade2] 100 .oms .custodian).store := by
  have hinv0 : PairingInv [sampleTrade1, sampleTrade2] := by
    intro t ht
    have ht' : t = sampleTrade1 ∨ t = sampleTrade2 := by simpa using ht
    rcases ht' with rfl | rfl <;>
      exact ⟨fun h => by simp [sampleTrade1, sampleTrade2] at h, fun _ => rfl⟩
  exact ⟨⟨by decide, by decide, hinv0⟩,
    (runReconciliation_one_to_one extSimZero defaultConfig defaultSlaEnv 1000
      [sampleTrade1, sampleTrade2] 100 .oms .custodian (by decide) (by decide) hinv0).1⟩


theorem segsOf_nil : segsOf [] = [] := by
  rw [segsOf]

theorem segsOf_cons_word (c : Char) (rest : List Char) (h : isWordChar c = true) :
    segsOf (c :: rest) =
      .word (c :: rest.takeWhile isWordChar) :: segsOf (rest.dropWhile isWordChar) := by
  rw [segsOf, if_pos h]

theorem segsOf_cons_other (c : Char) (rest : List Char) (h : isWordChar c = false) :
    segsOf (c :: rest) = .other c :: segsOf rest := by
  rw [segsOf, if_neg (by simp [h])]

theorem ofSegs_segsOf : ∀ l : List Char, ofSegs (segsOf l) = l
  | [] => by rw [segsOf_nil]; rfl
  | c :: rest => by
    by_cases h : isWordChar c = true
    · rw [segsOf_cons_word c rest h]
      show (c :: rest.takeWhile isWordChar) ++ ofSegs (segsOf (rest.dropWhile isWordChar)) =
        c :: rest
      rw [ofSegs_segsOf (rest.dropWhile isWordChar)]
      simp [List.takeWhile_append_dropWhile]
    · rw [segsOf_cons_other c rest (by simpa using h)]
      show c :: ofSegs (segsOf rest) = c :: rest
      rw [ofSegs_segsOf rest]
termination_by l => l.length
decreasing_by
  · exact Nat.lt_succ_of_le (List.dropWhile_sublist _).length_le
  · exact Nat.lt_succ_of_le (Nat.le_refl _)

theorem dropWhile_head_false {p : Char → Bool} (l : List Char) (c : Char) (t : List Char)
    (h : l.dropWhile p = c :: t) : p c = false := by
  induction l with
  | nil => cases h
  | cons a rest ih =>
    rw [List.dropWhile_cons] at h
    split_ifs at h with ha
    · exact ih h
    · injection h with h1 _
      subst h1
      simpa using ha

theorem segsOf_wf : ∀ l : List Char, SegsWF (segsOf l)
  | [] => by rw [segsOf_nil]; exact SegsWF.nil
  | c :: rest => by
    by_cases h : isWordChar c = true
    · rw [segsOf_cons_word c rest h]
      refine SegsWF.word _ (by simp) ?_ (segsOf_wf (rest.dropWhile isWordChar)) ?_
      · intro d hd
        rcases List.mem_cons.mp hd with rfl | hd'
        · exact h
        · exact List.mem_takeWhile_imp hd'
      · cases hx : rest.dropWhile isWordChar with
        | nil => rw [segsOf_nil]; trivial
        | cons d t =>
          rw [segsOf_cons_other d t (dropWhile_head_false rest d t hx)]
          trivial
    · rw [segsOf_cons_other c rest (by simpa using h)]
      exact SegsWF.other c (by simpa using h) (segsOf_wf rest)
termination_by l => l.length
decreasing_by
  · exact Nat.lt_succ_of_le (List.dropWhile_sublist _).length_le
  · exact Nat.lt_succ_of_le (Nat.le_refl _)
theorem dss_nil (suf : List Char) : dropSuffixSegs suf [] = [] := by
  rw [dropSuffixSegs]

theorem dss_word_eq (suf : List Char) (rest : List Seg) :
    dropSuffixSegs suf (.word suf :: rest) = dropSuffixSegs suf (dropLeadingDot rest) := by
  rw [dropSuffixSegs, if_pos rfl]

theorem dss_word_ne (suf r : List Char) (rest : List Seg) (h : r ≠ suf) :
    dropSuffixSegs suf (.word r :: rest) = .word r :: dropSuffixSegs suf rest := by
  rw [dropSuffixSegs, if_neg h]

theorem dss_other (suf : List Char) (c : Char) (rest : List Seg) :
    dropSuffixSegs suf (.other c :: rest) = .other c :: dropSuffixSegs suf rest := by
  rw [dropSuffixSegs]

theorem notWordHead_dss (suf : List Char) (sl : List Seg) (h : notWordHead sl) :
    notWordHead (dropSuffixSegs suf sl) := by
  cases sl with
  | nil => rw [dss_nil]; trivial
  | cons s rest =>
    cases s with
    | word r => cases h
    | other c => rw [dss_other]; trivial

theorem segsWF_dropLeadingDot (sl : List Seg) (h : SegsWF sl) : SegsWF (dropLeadingDot sl) := by
  cases sl with
  | nil => exact h
  | cons s rest =>
    cases s with
    | word r => exact h
    | other c =>
      by_cases hc : c = '.'
      · subst hc
        cases h with
        | other _ _ hrest => exact hrest
      · show SegsWF (dropLeadingDot (.other c :: rest))
        unfold dropLeadingDot
        split
        · next heq =>
          injection heq with h1 h2
          injection h1 with h1
          exact absurd h1 hc
        · exact h

theorem dropLeadingDot_notWordHead_aux (sl : List Seg) (h : SegsWF sl) :
    SegsWF (dropLeadingDot sl) := segsWF_dropLeadingDot sl h

theorem segsWF_word_inv (r : List Char) (rest : List Seg) (h : SegsWF (.word r :: rest)) :
    r ≠ [] ∧ (∀ c ∈ r, isWordChar c = true) ∧ SegsWF rest ∧ notWordHead rest := by
  cases h with
  | word _ hne hall hr hd => exact ⟨hne, hall, hr, hd⟩

theorem segsWF_other_inv (c : Char) (rest : List Seg) (h : SegsWF (.other c :: rest)) :
    isWordChar c = false ∧ SegsWF rest := by
  cases h with
  | other _ hc hr => exact ⟨hc, hr⟩

theorem segsWF_dss : ∀ (suf : List Char) (sl : List Seg), SegsWF sl →
    SegsWF (dropSuffixSegs suf sl)
  | _, [], _ => by rw [dss_nil]; exact SegsWF.nil
  | suf, .word r :: rest, h => by
    obtain ⟨hne, hall, hrest, hhd⟩ := segsWF_word_inv r rest h
    by_cases hr : r = suf
    · subst hr
      rw [dss_word_eq]
      exact segsWF_dss r (dropLeadingDot rest) (segsWF_dropLeadingDot rest hrest)
    · rw [dss_word_ne suf r rest hr]
      exact SegsWF.word r hne hall (segsWF_dss suf rest hrest) (notWordHead_dss suf rest hhd)
  | suf, .other c :: rest, h => by
    obtain ⟨hc, hrest⟩ := segsWF_other_inv c rest h
    rw [dss_other]
    exact SegsWF.other c hc (segsWF_dss suf rest hrest)
termination_by _ sl => sl.length
decreasing_by
  · refine Nat.lt_succ_of_le ?_
    show (dropLeadingDot rest).length ≤ rest.length
    unfold dropLeadingDot
    split
    · exact Nat.le_succ _
    · exact Nat.le_refl _
  · exact Nat.lt_succ_of_le (Nat.le_refl _)
  · exact Nat.lt_succ_of_le (Nat.le_refl _)
theorem ofSegs_head_shape (sl : List Seg) (hwf : SegsWF sl) (hhd : notWordHead sl) :
    ofSegs sl = [] ∨ ∃ c t, ofSegs sl = c :: t ∧ isWordChar c = false := by
  cases sl with
  | nil => exact Or.inl rfl
  | cons s rest =>
    cases s with
    | word r => cases hhd
    | other c => exact Or.inr ⟨c, ofSegs rest, rfl, (segsWF_other_inv c rest hwf).1⟩

theorem segsOf_ofSegs (sl : List Seg) (hwf : SegsWF sl) : segsOf (ofSegs sl) = sl := by
  induction hwf with
  | nil => exact segsOf_nil
  | other c hc h ih =>
    show segsOf (c :: ofSegs _) = _
    rw [segsOf_cons_other c _ hc, ih]
  | word r hne hall h hhd ih =>
    rename_i rest
    show segsOf (r ++ ofSegs rest) = _
    obtain ⟨c, r', rfl⟩ : ∃ c r', r = c :: r' := by
      cases r with
      | nil => exact absurd rfl hne
      | cons c r' => exact ⟨c, r', rfl⟩
    have hc : isWordChar c = true := hall c (List.mem_cons_self c r')
    have hr' : ∀ d ∈ r', isWordChar d = true := fun d hd => hall d (List.mem_cons_of_mem c hd)
    have htail : (r' ++ ofSegs rest).takeWhile isWordChar = r' ∧
        (r' ++ ofSegs rest).dropWhile isWordChar = ofSegs rest := by
      rcases ofSegs_head_shape rest h hhd with hnil | ⟨d, t, heq, hd⟩
      · rw [hnil]
        constructor
        · simp [List.takeWhile_eq_self_iff.mpr hr']
        · simp [List.dropWhile_eq_nil_iff.mpr hr']
      · rw [heq]
        constructor
        · rw [takeWhile_append_all r' (d :: t) hr', List.takeWhile_cons, hd]
          simp
        · rw [dropWhile_append_all r' (d :: t) hr', List.dropWhile_cons_of_neg (by simp [hd])]
    show segsOf (c :: (r' ++ ofSegs rest)) = _
    rw [segsOf_cons_word c _ hc, htail.1, htail.2, ih]
theorem runsOfSegs_nil : runsOfSegs [] = [] := rfl

theorem runsOfSegs_word (r : List Char) (rest : List Seg) :
    runsOfSegs (.word r :: rest) = r :: runsOfSegs rest := rfl

theorem runsOfSegs_other (c : Char) (rest : List Seg) :
    runsOfSegs (.other c :: rest) = runsOfSegs rest := rfl

theorem runs_dropLeadingDot (sl : List Seg) :
    runsOfSegs (dropLeadingDot sl) = runsOfSegs sl := by
  cases sl with
  | nil => rfl
  | cons s rest =>
    cases s with
    | word r => rfl
    | other c =>
      by_cases hc : c = '.'
      · subst hc
        rfl
      · show runsOfSegs (dropLeadingDot (.other c :: rest)) = _
        unfold dropLeadingDot
        split
        · next heq =>
          injection heq with h1 h2
          injection h1 with h1
          exact absurd h1 hc
        · rfl

theorem runs_dss : ∀ (suf : List Char) (sl : List Seg),
    runsOfSegs (dropSuffixSegs suf sl) = (runsOfSegs sl).filter (fun r => r ≠ suf)
  | _, [] => by rw [dss_nil]; rfl
  | suf, .word r :: rest => by
    by_cases hr : r = suf
    · subst hr
      rw [dss_word_eq, runs_dss r (dropLeadingDot rest), runs_dropLeadingDot,
        runsOfSegs_word, List.filter_cons]
      simp
    · rw [dss_word_ne suf r rest hr, runsOfSegs_word, runsOfSegs_word,
        runs_dss suf rest, List.filter_cons, if_pos (by simpa using hr)]
  | suf, .other c :: rest => by
    rw [dss_other, runsOfSegs_other, runsOfSegs_other, runs_dss suf rest]
termination_by _ sl => sl.length
decreasing_by
  · refine Nat.lt_succ_of_le ?_
    show (dropLeadingDot rest).length ≤ rest.length
    unfold dropLeadingDot
    split
    · exact Nat.le_succ _
    · exact Nat.le_refl _
  · exact Nat.lt_succ_of_le (Nat.le_refl _)
  · exact Nat.lt_succ_of_le (Nat.le_refl _)

theorem dss_id : ∀ (suf : List Char) (sl : List Seg),
    (∀ r ∈ runsOfSegs sl, r ≠ suf) → dropSuffixSegs suf sl = sl
  | _, [], _ => by rw [dss_nil]
  | suf, .word r :: rest, h => by
    have hr : r ≠ suf := h r (by rw [runsOfSegs_word]; exact List.mem_cons_self r _)
    rw [dss_word_ne suf r rest hr,
      dss_id suf rest (fun x hx => h x (by rw [runsOfSegs_word]; exact List.mem_cons_of_mem r hx))]
  | suf, .other c :: rest, h => by
    rw [dss_other, dss_id suf rest (fun x hx => h x (by rw [runsOfSegs_other]; exact hx))]
theorem wordRuns_subWordSuffix (suf : List Char) (l : List Char) :
    wordRuns (subWordSuffix suf l) = (wordRuns l).filter (fun r => r ≠ suf) := by
  unfold wordRuns subWordSuffix
  rw [segsOf_ofSegs _ (segsWF_dss suf (segsOf l) (segsOf_wf l)), runs_dss]

theorem subWordSuffix_id (suf : List Char) (l : List Char)
    (h : ∀ r ∈ wordRuns l, r ≠ suf) : subWordSuffix suf l = l := by
  unfold subWordSuffix
  rw [dss_id suf (segsOf l) h, ofSegs_segsOf]

theorem wordRuns_fold (sufs : List (List Char)) :
    ∀ l : List Char,
      wordRuns (sufs.foldl (fun t suf => subWordSuffix suf t) l) =
        sufs.foldl (fun rs suf => rs.filter (fun r => r ≠ suf)) (wordRuns l) := by
  induction sufs with
  | nil => intro l; rfl
  | cons suf rest ih =>
    intro l
    rw [List.foldl_cons, List.foldl_cons, ih, wordRuns_subWordSuffix]

theorem mem_foldl_filter (sufs : List (List Char)) :
    ∀ (rs : List (List Char)) (r : List Char),
      r ∈ sufs.foldl (fun rs suf => rs.filter (fun x => x ≠ suf)) rs →
      r ∈ rs ∧ ∀ suf ∈ sufs, r ≠ suf := by
  induction sufs with
  | nil =>
    intro rs r hr
    exact ⟨hr, fun suf hs => absurd hs (List.not_mem_nil suf)⟩
  | cons suf rest ih =>
    intro rs r hr
    rw [List.foldl_cons] at hr
    obtain ⟨hmem, hall⟩ := ih _ r hr
    obtain ⟨hrs, hne⟩ := List.mem_filter.mp hmem
    refine ⟨hrs, fun s hs => ?_⟩
    rcases List.mem_cons.mp hs with rfl | hs'
    · simpa using hne
    · exact hall s hs'

theorem fold_subWordSuffix_id (sufs : List (List Char)) :
    ∀ l : List Char, (∀ suf ∈ sufs, ∀ r ∈ wordRuns l, r ≠ suf) →
      sufs.foldl (fun t suf => subWordSuffix suf t) l = l := by
  induction sufs with
  | nil => intro l _; rfl
  | cons suf rest ih =>
    intro l h
    rw [List.foldl_cons, subWordSuffix_id suf l (h suf (List.mem_cons_self suf rest))]
    exact ih l (fun s hs r hr => h s (List.mem_cons_of_mem suf hs) r hr)
theorem char_toNat_ofNat (n : Nat) (h : n < 55296) : (Char.ofNat n).toNat = n := by
  rw [Char.ofNat, dif_pos (Or.inl h : n.isValidChar)]
  simp [Char.ofNatAux, Char.toNat, UInt32.toNat, BitVec.toNat_ofNatLt]

theorem toUpper_toUpper (c : Char) : c.toUpper.toUpper = c.toUpper := by
  unfold Char.toUpper
  by_cases h : c.toNat ≥ 97 ∧ c.toNat ≤ 122
  · rw [if_pos h, char_toNat_ofNat (c.toNat - 32) (by omega), if_neg (by omega)]
  · rw [if_neg h, if_neg h]

theorem isWordChar_false_of_pySpace (c : Char) (h : isPySpace c = true) :
    isWordChar c = false := by
  simp only [isPySpace, Bool.or_eq_true, decide_eq_true_eq] at h
  rcases h with ((((h | h) | h) | h) | h) | h <;> subst h <;> decide

theorem isPySpace_false_of_wordChar (c : Char) (h : isWordChar c = true) :
    isPySpace c = false := by
  cases hp : isPySpace c
  · rfl
  · rw [isWordChar_false_of_pySpace c hp] at h; cases h

theorem mem_lstripPy (c : Char) (l : List Char) (h : c ∈ lstripPy l) : c ∈ l :=
  (List.dropWhile_sublist _).mem h

theorem mem_rstripPy (c : Char) (l : List Char) (h : c ∈ rstripPy l) : c ∈ l := by
  unfold rstripPy at h
  rw [List.mem_reverse] at h
  exact List.mem_reverse.mp ((List.dropWhile_sublist _).mem h)

theorem mem_pyStrip (c : Char) (l : List Char) (h : c ∈ pyStrip l) : c ∈ l :=
  mem_lstripPy c l (mem_rstripPy c (lstripPy l) h)

theorem dropLeadingDot_sublist (sl : List Seg) : (dropLeadingDot sl).Sublist sl := by
  unfold dropLeadingDot
  split
  · exact List.sublist_cons_self _ _
  · exact List.Sublist.refl _

theorem dss_sublist : ∀ (suf : List Char) (sl : List Seg),
    (dropSuffixSegs suf sl).Sublist sl
  | _, [] => by rw [dss_nil]
  | suf, .word r :: rest => by
    by_cases hr : r = suf
    · subst hr
      rw [dss_word_eq]
      exact ((dss_sublist r (dropLeadingDot rest)).trans (dropLeadingDot_sublist rest)).trans
        (List.sublist_cons_self _ _)
    · rw [dss_word_ne suf r rest hr]
      exact (dss_sublist suf rest).cons₂ _
  | suf, .other c :: rest => by
    rw [dss_other]
    exact (dss_sublist suf rest).cons₂ _
termination_by _ sl => sl.length
decreasing_by
  · exact Nat.lt_succ_of_le (dropLeadingDot_sublist rest).length_le
  · exact Nat.lt_succ_of_le (Nat.le_refl _)
  · exact Nat.lt_succ_of_le (Nat.le_refl _)

theorem mem_ofSegs_of_sublist (c : Char) {sl sl' : List Seg} (hs : sl'.Sublist sl)
    (h : c ∈ ofSegs sl') : c ∈ ofSegs sl := by
  induction hs with
  | slnil => exact h
  | cons s _ ih =>
    cases s with
    | word r => exact List.mem_append_right r (ih h)
    | other d => exact List.mem_cons_of_mem d (ih h)
  | cons₂ s _ ih =>
    cases s with
    | word r =>
      rcases List.mem_append.mp h with h' | h'
      · exact List.mem_append_left _ h'
      · exact List.mem_append_right r (ih h')
    | other d =>
      rcases List.mem_cons.mp h with h' | h'
      · exact h' ▸ List.mem_cons_self d _
      · exact List.mem_cons_of_mem d (ih h')

theorem mem_subWordSuffix (c : Char) (suf l : List Char)
    (h : c ∈ subWordSuffix suf l) : c ∈ l := by
  unfold subWordSuffix at h
  have := mem_ofSegs_of_sublist c (dss_sublist suf (segsOf l)) h
  rwa [ofSegs_segsOf] at this

theorem mem_fold_subWordSuffix (c : Char) (sufs : List (List Char)) :
    ∀ l : List Char, c ∈ sufs.foldl (fun t suf => subWordSuffix suf t) l → c ∈ l := by
  induction sufs with
  | nil => intro l h; exact h
  | cons suf rest ih =>
    intro l h
    rw [List.foldl_cons] at h
    exact mem_subWordSuffix c suf l (ih _ h)
theorem collapseWs_nil : collapseWs [] = [] := by rw [collapseWs]

theorem collapseWs_cons_space (c : Char) (rest : List Char) (h : isPySpace c = true) :
    collapseWs (c :: rest) = ' ' :: collapseWs (rest.dropWhile isPySpace) := by
  rw [collapseWs, if_pos h]

theorem collapseWs_cons_nonspace (c : Char) (rest : List Char) (h : isPySpace c = false) :
    collapseWs (c :: rest) = c :: collapseWs rest := by
  rw [collapseWs, if_neg (by simp [h])]

theorem wordRuns_nil : wordRuns [] = [] := by
  unfold wordRuns
  rw [segsOf_nil]
  rfl

theorem wordRuns_cons_word (c : Char) (rest : List Char) (h : isWordChar c = true) :
    wordRuns (c :: rest) =
      (c :: rest.takeWhile isWordChar) :: wordRuns (rest.dropWhile isWordChar) := by
  unfold wordRuns
  rw [segsOf_cons_word c rest h, runsOfSegs_word]

theorem wordRuns_cons_nonword (c : Char) (rest : List Char) (h : isWordChar c = false) :
    wordRuns (c :: rest) = wordRuns rest := by
  unfold wordRuns
  rw [segsOf_cons_other c rest h, runsOfSegs_other]

theorem wordRuns_dropWhile_pyspace (l : List Char) :
    wordRuns (l.dropWhile isPySpace) = wordRuns l := by
  induction l with
  | nil => rfl
  | cons c rest ih =>
    rw [List.dropWhile_cons]
    split_ifs with h
    · rw [ih, wordRuns_cons_nonword c rest (isWordChar_false_of_pySpace c h)]
    · rfl

theorem wordRuns_eq_nil_of_nonword (l : List Char) (h : ∀ c ∈ l, isWordChar c = false) :
    wordRuns l = [] := by
  induction l with
  | nil => exact wordRuns_nil
  | cons c rest ih =>
    rw [wordRuns_cons_nonword c rest (h c (List.mem_cons_self c rest))]
    exact ih (fun x hx => h x (List.mem_cons_of_mem c hx))

theorem takeWhile_eq_nil_of_head_false (p : Char → Bool) (l : List Char)
    (h : ∀ c, l.head? = some c → p c = false) : l.takeWhile p = [] := by
  cases l with
  | nil => rfl
  | cons c rest => simp [List.takeWhile_cons, h c rfl]

theorem dropWhile_eq_self_of_head_false (p : Char → Bool) (l : List Char)
    (h : ∀ c, l.head? = some c → p c = false) : l.dropWhile p = l := by
  cases l with
  | nil => rfl
  | cons c rest => rw [List.dropWhile_cons_of_neg (by simp [h c rfl])]
theorem wordRuns_append_nonword (ys : List Char) (hys : ∀ c ∈ ys, isWordChar c = false) :
    ∀ xs : List Char, wordRuns (xs ++ ys) = wordRuns xs
  | [] => by
    rw [List.nil_append, wordRuns_eq_nil_of_nonword ys hys, wordRuns_nil]
  | c :: xs' => by
    by_cases hc : isWordChar c = true
    · rw [List.cons_append, wordRuns_cons_word c _ hc, wordRuns_cons_word c xs' hc]
      have hw : ∀ x ∈ xs'.takeWhile isWordChar, isWordChar x = true := fun x hx =>
        List.mem_takeWhile_imp hx
      cases hd : xs'.dropWhile isWordChar with
      | nil =>
        have hall : ∀ x ∈ xs', isWordChar x = true := List.dropWhile_eq_nil_iff.mp hd
        have hyhead : ∀ x, ys.head? = some x → isWordChar x = false := by
          intro x hx
          cases ys with
          | nil => cases hx
          | cons y t =>
            injection hx with hx
            exact hx ▸ hys y (List.mem_cons_self y t)
        rw [takeWhile_append_all xs' ys hall,
          dropWhile_append_all xs' ys hall,
          takeWhile_eq_nil_of_head_false _ ys hyhead,
          dropWhile_eq_self_of_head_false _ ys hyhead,
          wordRuns_eq_nil_of_nonword ys hys, List.append_nil,
          List.takeWhile_eq_self_iff.mpr hall, wordRuns_nil]
      | cons e d' =>
        have he : isWordChar e = false := dropWhile_head_false xs' e d' hd
        have h1 : xs' ++ ys = xs'.takeWhile isWordChar ++ (xs'.dropWhile isWordChar ++ ys) := by
          rw [← List.append_assoc, List.takeWhile_append_dropWhile]
        have hh : ∀ x, (xs'.dropWhile isWordChar ++ ys).head? = some x →
            isWordChar x = false := by
          rw [hd]
          intro x hx
          injection hx with hx
          exact hx ▸ he
        rw [h1, takeWhile_append_all _ _ hw, dropWhile_append_all _ _ hw,
          takeWhile_eq_nil_of_head_false _ _ hh, dropWhile_eq_self_of_head_false _ _ hh,
          List.append_nil,
          wordRuns_append_nonword ys hys (xs'.dropWhile isWordChar), hd]
    · have hc' : isWordChar c = false := by
        cases hcc : isWordChar c
        · rfl
        · exact absurd hcc hc
      rw [List.cons_append, wordRuns_cons_nonword c _ hc', wordRuns_cons_nonword c xs' hc']
      exact wordRuns_append_nonword ys hys xs'
termination_by xs => xs.length
decreasing_by
  all_goals
    refine Nat.lt_succ_of_le ?_
    first
      | exact (List.dropWhile_sublist _).length_le
      | exact Nat.le_refl _

theorem wordRuns_lstripPy (l : List Char) : wordRuns (lstripPy l) = wordRuns l := by
  unfold lstripPy
  exact wordRuns_dropWhile_pyspace l

theorem wordRuns_rstripPy (l : List Char) : wordRuns (rstripPy l) = wordRuns l := by
  have h2 : ∀ c ∈ (l.reverse.takeWhile isPySpace).reverse, isWordChar c = false := by
    intro c hc
    rw [List.mem_reverse] at hc
    exact isWordChar_false_of_pySpace c (List.mem_takeWhile_imp hc)
  have h1 : rstripPy l ++ (l.reverse.takeWhile isPySpace).reverse = l := by
    unfold rstripPy
    rw [← List.reverse_append, List.takeWhile_append_dropWhile, List.reverse_reverse]
  calc wordRuns (rstripPy l)
      = wordRuns (rstripPy l ++ (l.reverse.takeWhile isPySpace).reverse) :=
        (wordRuns_append_nonword _ h2 (rstripPy l)).symm
    _ = wordRuns l := by rw [h1]

theorem wordRuns_pyStrip (l : List Char) : wordRuns (pyStrip l) = wordRuns l := by
  unfold pyStrip
  rw [wordRuns_rstripPy, wordRuns_lstripPy]
theorem isWordChar_punctToSpace (c : Char) : isWordChar (punctToSpace c) = isWordChar c := by
  unfold punctToSpace
  split_ifs with h
  · have h1 : isWordChar c = false := by
      cases hw : isWordChar c
      · rfl
      · exact absurd hw h.1
    rw [h1]
    rfl
  · rfl

theorem punctToSpace_eq_self_of_word (c : Char) (h : isWordChar c = true) :
    punctToSpace c = c := by
  unfold punctToSpace
  rw [if_neg]
  intro hcon
  exact hcon.1 h

theorem punctToSpace_eq_self_of_space (c : Char) (h : isPySpace c = true) :
    punctToSpace c = c := by
  unfold punctToSpace
  rw [if_neg]
  intro hcon
  exact hcon.2 h

theorem punctToSpace_word_or_space (c : Char) :
    isWordChar (punctToSpace c) = true ∨ isPySpace (punctToSpace c) = true := by
  unfold punctToSpace
  split_ifs with h
  · right; rfl
  · rcases not_and_or.mp h with h1 | h1
    · left
      exact not_not.mp h1
    · right
      exact not_not.mp h1

theorem wordRuns_map_preserving (f : Char → Char)
    (hiso : ∀ c, isWordChar (f c) = isWordChar c)
    (hfix : ∀ c, isWordChar c = true → f c = c) :
    ∀ l : List Char, wordRuns (l.map f) = wordRuns l
  | [] => by rw [List.map_nil]
  | c :: rest => by
    have hcomp : isWordChar ∘ f = isWordChar := funext fun x => hiso x
    by_cases hc : isWordChar c = true
    · rw [List.map_cons, hfix c hc, wordRuns_cons_word c _ hc, wordRuns_cons_word c rest hc,
        List.takeWhile_map, List.dropWhile_map, hcomp]
      have hfw : ∀ x ∈ rest.takeWhile isWordChar, f x = x := fun x hx =>
        hfix x (List.mem_takeWhile_imp hx)
      rw [List.map_congr_left hfw, List.map_id',
        wordRuns_map_preserving f hiso hfix (rest.dropWhile isWordChar)]
    · have hc' : isWordChar c = false := by
        cases hcc : isWordChar c
        · rfl
        · exact absurd hcc hc
      rw [List.map_cons, wordRuns_cons_nonword (f c) _ (by rw [hiso]; exact hc'),
        wordRuns_cons_nonword c rest hc']
      exact wordRuns_map_preserving f hiso hfix rest
termination_by l => l.length
decreasing_by
  all_goals
    refine Nat.lt_succ_of_le ?_
    first
      | exact (List.dropWhile_sublist _).length_le
      | exact Nat.le_refl _

theorem wordRuns_map_punctToSpace (l : List Char) :
    wordRuns (l.map punctToSpace) = wordRuns l :=
  wordRuns_map_preserving punctToSpace isWordChar_punctToSpace punctToSpace_eq_self_of_word l
theorem collapseWs_head (l : List Char) :
    (collapseWs l).head? = l.head?.map (fun c => if isPySpace c then ' ' else c) := by
  cases l with
  | nil => rw [collapseWs_nil]; rfl
  | cons c rest =>
    cases h : isPySpace c
    · rw [collapseWs_cons_nonspace c rest h]
      simp [h]
    · rw [collapseWs_cons_space c rest h]
      simp [h]

theorem collapseWs_head_nonword (l : List Char)
    (hl : ∀ c, l.head? = some c → isWordChar c = false) :
    ∀ c, (collapseWs l).head? = some c → isWordChar c = false := by
  intro c hc
  rw [collapseWs_head] at hc
  cases hh : l.head? with
  | none => rw [hh] at hc; cases hc
  | some d =>
    rw [hh] at hc
    simp only [Option.map_some'] at hc
    injection hc with hc
    subst hc
    split_ifs with hd
    · decide
    · exact hl d hh

theorem collapseWs_append_word (w t : List Char) (hw : ∀ c ∈ w, isWordChar c = true) :
    collapseWs (w ++ t) = w ++ collapseWs t := by
  induction w with
  | nil => rfl
  | cons c w' ih =>
    rw [List.cons_append,
      collapseWs_cons_nonspace c _ (isPySpace_false_of_wordChar c (hw c (List.mem_cons_self c w'))),
      ih (fun x hx => hw x (List.mem_cons_of_mem c hx)), List.cons_append]

theorem wordRuns_collapseWs : ∀ l : List Char, wordRuns (collapseWs l) = wordRuns l
  | [] => by rw [collapseWs_nil]
  | c :: rest => by
    cases hsp : isPySpace c
    · by_cases hc : isWordChar c = true
      · rw [collapseWs_cons_nonspace c rest hsp, wordRuns_cons_word c _ hc,
          wordRuns_cons_word c rest hc]
        have hw : ∀ x ∈ rest.takeWhile isWordChar, isWordChar x = true := fun x hx =>
          List.mem_takeWhile_imp hx
        have hcw : collapseWs rest =
            rest.takeWhile isWordChar ++ collapseWs (rest.dropWhile isWordChar) := by
          conv_lhs => rw [← List.takeWhile_append_dropWhile isWordChar rest]
          exact collapseWs_append_word _ _ hw
        have hdh : ∀ x, (rest.dropWhile isWordChar).head? = some x → isWordChar x = false := by
          intro x hx
          cases hdd : rest.dropWhile isWordChar with
          | nil => rw [hdd] at hx; cases hx
          | cons e d' =>
            rw [hdd] at hx
            injection hx with hx
            exact hx ▸ dropWhile_head_false rest e d' hdd
        have hch : ∀ x, (collapseWs (rest.dropWhile isWordChar)).head? = some x →
            isWordChar x = false := collapseWs_head_nonword _ hdh
        rw [hcw, takeWhile_append_all _ _ hw, dropWhile_append_all _ _ hw,
          takeWhile_eq_nil_of_head_false _ _ hch, dropWhile_eq_self_of_head_false _ _ hch,
          List.append_nil, wordRuns_collapseWs (rest.dropWhile isWordChar)]
      · have hc' : isWordChar c = false := by
          cases hcc : isWordChar c
          · rfl
          · exact absurd hcc hc
        rw [collapseWs_cons_nonspace c rest hsp, wordRuns_cons_nonword c _ hc',
          wordRuns_cons_nonword c rest hc']
        exact wordRuns_collapseWs rest
    · rw [collapseWs_cons_space c rest hsp,
        wordRuns_cons_nonword ' ' _ (by decide),
        wordRuns_cons_nonword c rest (isWordChar_false_of_pySpace c hsp),
        wordRuns_collapseWs (rest.dropWhile isPySpace), wordRuns_dropWhile_pyspace]
termination_by l => l.length
decreasing_by
  all_goals
    refine Nat.lt_succ_of_le ?_
    first
      | exact (List.dropWhile_sublist _).length_le
      | exact Nat.le_refl _
theorem head_dropWhile_false (p : Char → Bool) (l : List Char) :
    ∀ x, (l.dropWhile p).head? = some x → p x = false := by
  intro x hx
  cases hdd : l.dropWhile p with
  | nil => rw [hdd] at hx; cases hx
  | cons e d' =>
    rw [hdd] at hx
    injection hx with hx
    exact hx ▸ dropWhile_head_false l e d' hdd

theorem collapseWs_head_nonspace (l : List Char)
    (hl : ∀ c, l.head? = some c → isPySpace c = false) :
    ∀ c, (collapseWs l).head? = some c → isPySpace c = false := by
  intro c hc
  rw [collapseWs_head] at hc
  cases hh : l.head? with
  | none => rw [hh] at hc; cases hc
  | some d =>
    rw [hh] at hc
    simp only [Option.map_some'] at hc
    injection hc with hc
    subst hc
    split_ifs with hd
    · exact absurd hd (by simp [hl d hh])
    · exact hl d hh

theorem chain'_collapseWs :
    ∀ l : List Char,
      List.Chain' (fun a b => ¬(isPySpace a = true ∧ isPySpace b = true)) (collapseWs l)
  | [] => by rw [collapseWs_nil]; exact List.chain'_nil
  | c :: rest => by
    cases hsp : isPySpace c
    · rw [collapseWs_cons_nonspace c rest hsp]
      refine List.chain'_cons'.mpr ⟨?_, chain'_collapseWs rest⟩
      intro y _ hcon
      rw [hsp] at hcon
      exact Bool.noConfusion hcon.1
    · rw [collapseWs_cons_space c rest hsp]
      refine List.chain'_cons'.mpr ⟨?_, chain'_collapseWs (rest.dropWhile isPySpace)⟩
      intro y hy hcon
      rw [Option.mem_def] at hy
      have hnd : isPySpace y = false :=
        collapseWs_head_nonspace _ (head_dropWhile_false isPySpace rest) y hy
      rw [hnd] at hcon
      exact Bool.noConfusion hcon.2
termination_by l => l.length
decreasing_by
  all_goals
    refine Nat.lt_succ_of_le ?_
    first
      | exact (List.dropWhile_sublist _).length_le
      | exact Nat.le_refl _

theorem rstripPy_isPref (l : List Char) : (rstripPy l).IsPrefix l := by
  refine ⟨(l.reverse.takeWhile isPySpace).reverse, ?_⟩
  unfold rstripPy
  rw [← List.reverse_append, List.takeWhile_append_dropWhile, List.reverse_reverse]

theorem chain'_pyStrip {R : Char → Char → Prop} (l : List Char) (h : List.Chain' R l) :
    List.Chain' R (pyStrip l) := by
  unfold pyStrip
  have h1 : List.Chain' R (lstripPy l) := by
    unfold lstripPy
    exact h.suffix (List.dropWhile_suffix isPySpace)
  exact h1.prefix (rstripPy_isPref (lstripPy l))

theorem rstripPy_head_false (l : List Char) (hl : ∀ c, l.head? = some c → isPySpace c = false) :
    ∀ c, (rstripPy l).head? = some c → isPySpace c = false := by
  intro c hc
  obtain ⟨s, hs⟩ := rstripPy_isPref l
  apply hl
  rw [← hs]
  cases hrr : rstripPy l with
  | nil => rw [hrr] at hc; cases hc
  | cons e d =>
    rw [hrr] at hc
    injection hc with hc
    rw [List.cons_append]
    rw [hc]
    rfl

theorem pyStrip_head_nonspace (l : List Char) :
    ∀ c, (pyStrip l).head? = some c → isPySpace c = false := by
  unfold pyStrip
  exact rstripPy_head_false (lstripPy l) (head_dropWhile_false isPySpace l)

theorem pyStrip_getLast_nonspace (l : List Char) :
    ∀ c, (pyStrip l).getLast? = some c → isPySpace c = false := by
  intro c hc
  unfold pyStrip rstripPy at hc
  rw [List.getLast?_reverse] at hc
  exact head_dropWhile_false isPySpace _ c hc
theorem mem_collapseWs : ∀ (l : List Char) (c : Char), c ∈ collapseWs l →
    c = ' ' ∨ (c ∈ l ∧ isPySpace c = false)
  | [], c => by rw [collapseWs_nil]; intro h; cases h
  | d :: rest, c => by
    cases hsp : isPySpace d
    · rw [collapseWs_cons_nonspace d rest hsp]
      intro h
      rcases List.mem_cons.mp h with rfl | h'
      · right
        exact ⟨List.mem_cons_self _ _, hsp⟩
      · rcases mem_collapseWs rest c h' with h'' | ⟨hm, hns⟩
        · left; exact h''
        · right; exact ⟨List.mem_cons_of_mem d hm, hns⟩
    · rw [collapseWs_cons_space d rest hsp]
      intro h
      rcases List.mem_cons.mp h with rfl | h'
      · left; rfl
      · rcases mem_collapseWs (rest.dropWhile isPySpace) c h' with h'' | ⟨hm, hns⟩
        · left; exact h''
        · right; exact ⟨List.mem_cons_of_mem d ((List.dropWhile_sublist _).mem hm), hns⟩
termination_by l => l.length
decreasing_by
  all_goals
    refine Nat.lt_succ_of_le ?_
    first
      | exact (List.dropWhile_sublist _).length_le
      | exact Nat.le_refl _

theorem collapseWs_eq_self (m : List Char)
    (h1 : ∀ c ∈ m, isWordChar c = true ∨ c = ' ')
    (h2 : List.Chain' (fun a b => ¬(isPySpace a = true ∧ isPySpace b = true)) m) :
    collapseWs m = m := by
  induction m with
  | nil => exact collapseWs_nil
  | cons c rest ih =>
    have h2' := List.chain'_cons'.mp h2
    cases hsp : isPySpace c
    · rw [collapseWs_cons_nonspace c rest hsp,
        ih (fun x hx => h1 x (List.mem_cons_of_mem c hx)) h2'.2]
    · have hc : c = ' ' := by
        rcases h1 c (List.mem_cons_self c rest) with hw | hs
        · rw [isPySpace_false_of_wordChar c hw] at hsp
          exact Bool.noConfusion hsp
        · exact hs
      have hdr : rest.dropWhile isPySpace = rest := by
        refine dropWhile_eq_self_of_head_false isPySpace rest ?_
        intro x hx
        have := h2'.1 x (Option.mem_def.mpr hx)
        cases hxx : isPySpace x
        · rfl
        · exact absurd ⟨hsp, hxx⟩ this
      rw [collapseWs_cons_space c rest hsp, hdr,
        ih (fun x hx => h1 x (List.mem_cons_of_mem c hx)) h2'.2, hc]
theorem punctToSpace_cases (x : Char) :
    punctToSpace x = ' ' ∨
      (punctToSpace x = x ∧ (isWordChar x = true ∨ isPySpace x = true)) := by
  unfold punctToSpace
  split_ifs with h
  · left; rfl
  · right
    exact ⟨rfl, (not_and_or.mp h).imp not_not.mp not_not.mp⟩

theorem normalizeCounterpartyL_canon (l : List Char) :
    (∀ c ∈ normalizeCounterpartyL l, c.toUpper = c ∧ (isWordChar c = true ∨ c = ' ')) ∧
    List.Chain' (fun a b => ¬(isPySpace a = true ∧ isPySpace b = true))
      (normalizeCounterpartyL l) ∧
    (∀ c, (normalizeCounterpartyL l).head? = some c → isPySpace c = false) ∧
    (∀ c, (normalizeCounterpartyL l).getLast? = some c → isPySpace c = false) ∧
    (∀ r ∈ wordRuns (normalizeCounterpartyL l), ∀ suf ∈ corpSuffixes, r ≠ suf) := by
  refine ⟨?_, ?_, ?_, ?_, ?_⟩
  · intro c hc
    unfold normalizeCounterpartyL at hc
    have hc2 := mem_pyStrip c _ hc
    rcases mem_collapseWs _ c hc2 with rfl | ⟨hmem, hns⟩
    · exact ⟨by decide, Or.inr rfl⟩
    · obtain ⟨x, hxX, hxc⟩ := List.mem_map.mp hmem
      have hxl : x ∈ pyStrip (pyUpper (l : List Char)) :=
        mem_fold_subWordSuffix x corpSuffixes _ hxX
      have hxup : x.toUpper = x := by
        obtain ⟨y, _, hy⟩ := List.mem_map.mp (mem_pyStrip x _ hxl)
        rw [← hy]
        exact toUpper_toUpper y
      rcases punctToSpace_cases x with hp | ⟨hp, hwx⟩
      · have hcs : c = ' ' := by rw [← hxc, hp]
        subst hcs
        exact ⟨by decide, Or.inr rfl⟩
      · have hcx : c = x := by rw [← hxc, hp]
        subst hcx
        rcases hwx with hw | hs
        · exact ⟨hxup, Or.inl hw⟩
        · exact absurd hs (by simp [hns])
  · exact chain'_pyStrip _ (chain'_collapseWs _)
  · exact pyStrip_head_nonspace _
  · exact pyStrip_getLast_nonspace _
  · intro r hr suf hsuf
    unfold normalizeCounterpartyL at hr
    rw [wordRuns_pyStrip, wordRuns_collapseWs, wordRuns_map_punctToSpace, wordRuns_fold] at hr
    exact (mem_foldl_filter corpSuffixes _ r hr).2 suf hsuf

theorem normalizeCounterpartyL_fixed (m : List Char)
    (h1 : ∀ c ∈ m, c.toUpper = c ∧ (isWordChar c = true ∨ c = ' '))
    (h2 : List.Chain' (fun a b => ¬(isPySpace a = true ∧ isPySpace b = true)) m)
    (h3 : ∀ c, m.head? = some c → isPySpace c = false)
    (h4 : ∀ c, m.getLast? = some c → isPySpace c = false)
    (h5 : ∀ r ∈ wordRuns m, ∀ suf ∈ corpSuffixes, r ≠ suf) :
    normalizeCounterpartyL m = m := by
  have hup : pyUpper m = m := by
    unfold pyUpper
    rw [List.map_congr_left (fun c hc => (h1 c hc).1), List.map_id']
  have hl : lstripPy m = m := dropWhile_eq_self_of_head_false isPySpace m h3
  have hr : rstripPy m = m := by
    unfold rstripPy
    rw [dropWhile_eq_self_of_head_false isPySpace m.reverse
      (fun c hc => h4 c (by rw [← List.head?_reverse]; exact hc)), List.reverse_reverse]
  have hstrip : pyStrip m = m := by
    unfold pyStrip
    rw [hl, hr]
  have hfold : corpSuffixes.foldl (fun t suf => subWordSuffix suf t) m = m :=
    fold_subWordSuffix_id corpSuffixes m (fun suf hs r hrr => h5 r hrr suf hs)
  have hpm : ∀ c ∈ m, punctToSpace c = c := by
    intro c hc
    rcases (h1 c hc).2 with hw | hs
    · exact punctToSpace_eq_self_of_word c hw
    · rw [hs]
      exact punctToSpace_eq_self_of_space ' ' (by decide)
  have hmap : m.map punctToSpace = m := by
    rw [List.map_congr_left hpm, List.map_id']
  have hcol : collapseWs m = m :=
    collapseWs_eq_self m (fun c hc => (h1 c hc).2) h2
  unfold normalizeCounterpartyL
  rw [hup, hstrip, hfold, hmap, hcol, hstrip]

theorem normalizeCounterpartyL_idem (l : List Char) :
    normalizeCounterpartyL (normalizeCounterpartyL l) = normalizeCounterpartyL l := by
  obtain ⟨h1, h2, h3, h4, h5⟩ := normalizeCounterpartyL_canon l
  exact normalizeCounterpartyL_fixed _ h1 h2 h3 h4 h5

theorem normalize_counterparty_idem (x : Option String) :
    normalize_counterparty (some (normalize_counterparty x)) = normalize_counterparty x := by
  unfold normalize_counterparty
  cases x with
  | none => rfl
  | some s =>
    dsimp only
    by_cases hs : s = ""
    · rw [if_pos hs, if_pos rfl]
    · rw [if_neg hs]
      by_cases h2 : String.mk (normalizeCounterpartyL s.data) = ""
      · rw [if_pos h2]
        exact h2.symm
      · rw [if_neg h2]
        show String.mk (normalizeCounterpartyL (normalizeCounterpartyL s.data)) =
          String.mk (normalizeCounterpartyL s.data)
        rw [normalizeCounterpartyL_idem]
theorem rhe_intCast (n : ℤ) : rhe (n : ℚ) = n := by
  unfold rhe
  simp only [Int.floor_intCast, sub_self]
  rw [if_pos (by norm_num)]

theorem roundTo_idem (d : ℤ) (q : ℚ) : roundTo d (roundTo d q) = roundTo d q := by
  unfold roundTo
  rw [div_mul_cancel₀ _ (zpow_ne_zero d (by norm_num : (10:ℚ) ≠ 0)), rhe_intCast]

theorem normalize_amount_idem (x : Option ℚ) (d : ℤ) :
    normalize_amount (some (normalize_amount x d)) d = normalize_amount x d := by
  unfold normalize_amount
  rw [Option.getD_some]
  exact roundTo_idem d (x.getD 0)

theorem charToDigit_ofNat (d : ℕ) (h : d < 10) :
    charToDigit (Char.ofNat (48 + d)) = d := by
  unfold charToDigit
  rw [char_toNat_ofNat (48 + d) (by omega)]
  omega

theorem natDigitsL_no_dash (n : ℕ) : ∀ c ∈ natDigitsL n, c ≠ '-' := by
  intro c hc
  unfold natDigitsL at hc
  obtain ⟨d, hd, hdc⟩ := List.mem_map.mp hc
  have hd10 : d < 10 := Nat.digits_lt_base (by norm_num) (List.mem_reverse.mp hd)
  intro hcon
  have : c.toNat = 48 + d := by rw [← hdc]; exact char_toNat_ofNat (48 + d) (by omega)
  rw [hcon] at this
  have h45 : ('-').toNat = 45 := by decide
  rw [h45] at this
  omega

theorem padZeros_no_dash (w : ℕ) (s : List Char) (hs : ∀ c ∈ s, c ≠ '-') :
    ∀ c ∈ padZeros w s, c ≠ '-' := by
  intro c hc
  unfold padZeros at hc
  rcases List.mem_append.mp hc with h | h
  · have := List.eq_of_mem_replicate h
    subst this
    decide
  · exact hs c h

theorem splitOnDash_no_dash (l : List Char) (hl : ∀ c ∈ l, c ≠ '-') :
    splitOnDash l = [l] := by
  induction l with
  | nil => rfl
  | cons c rest ih =>
    rw [splitOnDash, if_neg (by simpa using hl c (List.mem_cons_self c rest))]
    rw [ih (fun x hx => hl x (List.mem_cons_of_mem c hx))]

theorem splitOnDash_append (a : List Char) (t : List Char) (ha : ∀ c ∈ a, c ≠ '-') :
    splitOnDash (a ++ '-' :: t) = a :: splitOnDash t := by
  induction a with
  | nil =>
    rw [List.nil_append, splitOnDash, if_pos rfl]
  | cons c a' ih =>
    rw [List.cons_append, splitOnDash,
      if_neg (by simpa using ha c (List.mem_cons_self c a')),
      ih (fun x hx => ha x (List.mem_cons_of_mem c hx))]

theorem ofDigits_replicate_zero (k : ℕ) : Nat.ofDigits 10 (List.replicate k 0) = 0 := by
  induction k with
  | zero => rfl
  | succ k ih =>
    rw [List.replicate_succ, Nat.ofDigits_cons, ih]

theorem listToNat_padZeros_natDigitsL (w : ℕ) (n : ℕ) :
    listToNat (padZeros w (natDigitsL n)) = n := by
  unfold listToNat padZeros natDigitsL
  rw [List.map_append, List.map_replicate]
  show Nat.ofDigits 10 (List.replicate _ (charToDigit '0') ++
    (((Nat.digits 10 n).reverse.map fun d => Char.ofNat (48 + d)).map charToDigit)).reverse = n
  rw [List.reverse_append, List.map_map]
  have h1 : ((Nat.digits 10 n).reverse.map (charToDigit ∘ fun d => Char.ofNat (48 + d))) =
      (Nat.digits 10 n).reverse := by
    refine List.map_congr_left ?_ |>.trans (List.map_id' _)
    intro d hd
    exact charToDigit_ofNat d (Nat.digits_lt_base (by norm_num) (List.mem_reverse.mp hd))
  rw [h1, List.reverse_reverse]
  have h0 : charToDigit '0' = 0 := by decide
  rw [h0, Nat.ofDigits_append, List.reverse_replicate, ofDigits_replicate_zero,
    Nat.ofDigits_digits, Nat.mul_zero, Nat.add_zero]
theorem parseIsoDate_renderIsoDate (d : PyDateTime) :
    parseIsoDate (String.mk (renderIsoDateL d)) =
      ⟨d.year, d.month, d.day, 0, 0, 0⟩ := by
  unfold parseIsoDate renderIsoDateL
  dsimp only
  rw [splitOnDash_append _ _ (padZeros_no_dash 4 _ (natDigitsL_no_dash d.year)),
    splitOnDash_append _ _ (padZeros_no_dash 2 _ (natDigitsL_no_dash d.month)),
    splitOnDash_no_dash _ (padZeros_no_dash 2 _ (natDigitsL_no_dash d.day))]
  dsimp only
  rw [listToNat_padZeros_natDigitsL, listToNat_padZeros_natDigitsL,
    listToNat_padZeros_natDigitsL]

theorem normalize_date_rerender (d : PyDateTime) :
    normalize_date (some (parseIsoDate (normalize_date (some d)))) =
      normalize_date (some d) := by
  unfold normalize_date
  dsimp only
  rw [parseIsoDate_renderIsoDate]
  rfl

/-- Claim C5, counterexample: the normalizers are not all idempotent on their
output. On input "ABC.DE F" the first pass of normalize_symbol only removes
the internal space, producing "ABC.DEF"; a second pass then strips ".DEF" as
an exchange suffix, yielding "ABC". -/
theorem normalize_symbol_not_idempotent :
    normalize_symbol (some (normalize_symbol (some "ABC.DE F"))) ≠
      normalize_symbol (some "ABC.DE F") := by decide

/-- Claim C5, amended: normalize_counterparty is idempotent on every input,
normalize_amount is idempotent at every digit count, and normalize_date
applied to the date denoted by an already-rendered date string renders the
same string; normalize_symbol however is NOT idempotent (witness "ABC.DE F",
whose first normalization "ABC.DEF" loses its ".DEF" tail on a second pass). -/
theorem normalizers_idempotent_amended :
    (∀ x : Option String,
      normalize_counterparty (some (normalize_counterparty x)) = normalize_counterparty x) ∧
    (∀ (x : Option ℚ) (d : ℤ),
      normalize_amount (some (normalize_amount x d)) d = normalize_amount x d) ∧
    (∀ d : PyDateTime,
      normalize_date (some (parseIsoDate (normalize_date (some d)))) =
        normalize_date (some d)) ∧
    (∃ s : String,
      normalize_symbol (some (normalize_symbol (some s))) ≠ normalize_symbol (some s)) :=
  ⟨normalize_counterparty_idem, normalize_amount_idem, normalize_date_rerender,
    ⟨"ABC.DE F", by decide⟩⟩

end TradeRecon
